import Mathlib

set_option maxRecDepth 4000

/-!
Verification of the core of `debugedit` (src/tools/debugedit.c), the
post-link DWARF rewriter.  This file gives a shallow embedding of the
pieces of the program that the checked claims are about — the byte codec
(ULEB128 and fixed-width little-endian reads and writes), the path
utilities (`canonicalize_path`, `skip_dir_prefix`), the string-pool
recording step, the inline `DW_FORM_string` comp_dir rewrite, the
relocation index (`find_rel_for_ptr`, `do_read_32_relocated`,
`do_write_32_relocated`, `update_rela_data`), the `.debug_str_offsets`
header walk and the `.debug_line` emission — and proves or refutes each
claim against that embedding.

Machine integers are modelled as `Nat` with explicit `% 2 ^ 32`
truncation where the C types make overflow observable.  Buffers are
`List Nat` (bytes) or `List Char` (NUL-free C strings; the terminating
NUL is represented by the end of the list).  C loops whose termination
is not structural are written with an explicit fuel argument that is
always sufficient (a comment at each notes the bound).
-/

namespace Debugedit

/-- Maximum value of a 32-bit `unsigned int`; the saturation value used
by the `read_uleb128` macro. -/
def UINT_MAX : Nat := 2 ^ 32 - 1

/-- Loop of the `read_uleb128` macro (debugedit.c lines 344-358):
`ret |= (c & 0x7f) << shift; shift += 7` while the continuation bit of
`c` is set.  Returns the raw accumulator together with the final shift,
or `none` when the byte list runs out while the continuation bit is
still set (the C macro would read past the given bytes).  The
accumulator is kept as an unbounded natural; `read_uleb128` below
truncates it to 32 bits, which agrees with the per-step truncation of
the C `unsigned int` because bitwise-or commutes with taking low bits. -/
def read_uleb128_loop : List Nat → Nat → Nat → Option (Nat × Nat)
  | [], _, _ => none
  | c :: rest, ret, shift =>
    let ret2 := ret ||| ((c &&& 0x7f) <<< shift)
    if c &&& 0x80 ≠ 0 then
      read_uleb128_loop rest ret2 (shift + 7)
    else
      some (ret2, shift + 7)

/-- The `read_uleb128` macro (debugedit.c lines 344-358): ULEB128
decoding of a 32-bit value, with the final `if (shift >= 35) ret =
UINT_MAX;` saturation. -/
def read_uleb128 (bytes : List Nat) : Option Nat :=
  (read_uleb128_loop bytes 0 0).map fun p =>
    if 35 ≤ p.2 then UINT_MAX else p.1 % 2 ^ 32

/-- Loop body of the `write_uleb128` macro (debugedit.c lines 360-371):
emit the low seven bits, with the continuation bit whenever the shifted
value is still nonzero.  The macro stores its argument in a `uint32_t`,
so five iterations always suffice; the fuel argument only bounds that
loop and `write_uleb128` passes 5. -/
def write_uleb128_go : Nat → Nat → List Nat
  | 0, _ => []
  | fuel + 1, valv =>
    let c := valv &&& 0x7f
    let valv2 := valv >>> 7
    if valv2 = 0 then [c] else (c ||| 0x80) :: write_uleb128_go fuel valv2

/-- The `write_uleb128` macro (debugedit.c lines 360-371).  The macro
truncates its argument to `uint32_t` (`uint32_t valv = (val);`). -/
def write_uleb128 (val : Nat) : List Nat :=
  write_uleb128_go 5 (val % 2 ^ 32)

/-- Mathematical ULEB128 decoding, used only to state what an encoding
of a value is: every byte contributes seven payload bits, every byte but
the last carries the continuation bit.  Independent of the program's
saturating decoder. -/
def ulebDecode : List Nat → Option Nat
  | [] => none
  | [b] => if b < 0x80 then some b else none
  | b :: rest =>
    if 0x80 ≤ b ∧ b < 0x100 then
      (ulebDecode rest).map fun w => (b - 0x80) + 128 * w
    else
      none

/-- `bytes` is the minimal ULEB128 encoding of `v`: it decodes to `v`
and carries no redundant trailing zero byte. -/
def IsMinimalUleb (bytes : List Nat) (v : Nat) : Prop :=
  ulebDecode bytes = some v ∧ (bytes.getLast? ≠ some 0 ∨ bytes = [0])



lemma byte_hi : ∀ b, b < 256 → 128 ≤ b → (b &&& 128 ≠ 0 ∧ b &&& 127 = b - 128) := by decide

lemma byte_lo : ∀ b, b < 128 → (b &&& 128 = 0 ∧ b &&& 127 = b) := by decide

lemma or_add_of_lt {ret c s : Nat} (h : ret < 2 ^ s) : ret ||| c <<< s = ret + c * 2 ^ s := by
  rw [Nat.shiftLeft_eq, Nat.lor_comm, mul_comm c (2 ^ s), ← Nat.mul_add_lt_is_or h c]
  ring

lemma ulebDecode_singleton {b v : Nat} (h : ulebDecode [b] = some v) : b < 128 ∧ v = b := by
  simp only [ulebDecode] at h
  split at h
  · exact ⟨by omega, by simpa using h.symm⟩
  · exact absurd h (by simp)

lemma ulebDecode_cons_cons {b c : Nat} {t : List Nat} {v : Nat}
    (h : ulebDecode (b :: c :: t) = some v) :
    (128 ≤ b ∧ b < 256) ∧ ∃ w, ulebDecode (c :: t) = some w ∧ v = (b - 128) + 128 * w := by
  simp only [ulebDecode] at h
  split at h
  · next hb =>
    refine ⟨hb, ?_⟩
    cases hw : ulebDecode (c :: t) with
    | none => rw [hw] at h; exact absurd h (by simp)
    | some w => rw [hw] at h; exact ⟨w, rfl, by simpa using h.symm⟩
  · exact absurd h (by simp)

lemma read_uleb128_loop_cons (c : Nat) (rest : List Nat) (ret shift : Nat) :
    read_uleb128_loop (c :: rest) ret shift =
      if c &&& 0x80 ≠ 0 then
        read_uleb128_loop rest (ret ||| (c &&& 0x7f) <<< shift) (shift + 7)
      else
        some (ret ||| (c &&& 0x7f) <<< shift, shift + 7) := rfl

lemma read_uleb128_loop_spec : ∀ (bytes : List Nat) (v ret shift : Nat),
    ulebDecode bytes = some v → ret < 2 ^ shift →
    read_uleb128_loop bytes ret shift = some (ret + v * 2 ^ shift, shift + 7 * bytes.length) := by
  intro bytes
  induction bytes with
  | nil => intro v ret shift h _; exact absurd h (by simp [ulebDecode])
  | cons b rest ih =>
    intro v ret shift hdec hret
    cases rest with
    | nil =>
      obtain ⟨hb, hv⟩ := ulebDecode_singleton hdec
      have hfacts := byte_lo b hb
      rw [read_uleb128_loop_cons, hfacts.2, if_neg (by simp [hfacts.1]), or_add_of_lt hret]
      simp [hv]
    | cons c t =>
      obtain ⟨hb, w, hw, hv⟩ := ulebDecode_cons_cons hdec
      have hfacts := byte_hi b hb.2 hb.1
      rw [read_uleb128_loop_cons, hfacts.2, if_pos hfacts.1, or_add_of_lt hret]
      have hret2 : ret + (b - 128) * 2 ^ shift < 2 ^ (shift + 7) := by
        have h1 : b - 128 ≤ 127 := by omega
        have h2 := Nat.mul_le_mul_right (2 ^ shift) h1
        have h3 : 2 ^ shift + 127 * 2 ^ shift = 2 ^ (shift + 7) := by ring
        omega
      rw [ih w (ret + (b - 128) * 2 ^ shift) (shift + 7) hw hret2]
      have hval : ret + (b - 128) * 2 ^ shift + w * 2 ^ (shift + 7) = ret + v * 2 ^ shift := by
        rw [hv]; ring
      have hlen : shift + 7 + 7 * (c :: t).length = shift + 7 * (b :: c :: t).length := by
        simp [List.length_cons]; ring
      rw [hval, hlen]

lemma ulebDecode_lt : ∀ (bytes : List Nat) (v : Nat),
    ulebDecode bytes = some v → v < 128 ^ bytes.length := by
  intro bytes
  induction bytes with
  | nil => intro v h; exact absurd h (by simp [ulebDecode])
  | cons b rest ih =>
    intro v hdec
    cases rest with
    | nil =>
      obtain ⟨hb, hv⟩ := ulebDecode_singleton hdec
      simp only [List.length_cons, List.length_nil, pow_one]
      omega
    | cons c t =>
      obtain ⟨hb, w, hw, hv⟩ := ulebDecode_cons_cons hdec
      have hwlt := ih w hw
      calc v < 128 * (w + 1) := by omega
      _ ≤ 128 * 128 ^ (c :: t).length := Nat.mul_le_mul_left 128 hwlt
      _ = 128 ^ (b :: c :: t).length := by
        rw [List.length_cons b (c :: t), pow_succ]
        ring

lemma ulebDecode_getLast_lower : ∀ (bytes : List Nat) (v b : Nat),
    ulebDecode bytes = some v → bytes.getLast? = some b → b ≠ 0 →
    128 ^ (bytes.length - 1) ≤ v := by
  intro bytes
  induction bytes with
  | nil => intro v b h _ _; exact absurd h (by simp [ulebDecode])
  | cons c rest ih =>
    intro v b hdec hlast hb
    cases rest with
    | nil =>
      obtain ⟨hc, hv⟩ := ulebDecode_singleton hdec
      simp only [List.getLast?_singleton, Option.some.injEq] at hlast
      simp only [List.length_cons, List.length_nil, Nat.sub_self, pow_zero]
      omega
    | cons d t =>
      obtain ⟨hc, w, hw, hv⟩ := ulebDecode_cons_cons hdec
      rw [List.getLast?_cons_cons] at hlast
      have hwlow := ih w b hw hlast hb
      have hlen : (c :: d :: t).length - 1 = ((d :: t).length - 1) + 1 := by
        simp [List.length_cons]
      rw [hlen, pow_succ]
      calc 128 ^ ((d :: t).length - 1) * 128 ≤ w * 128 := Nat.mul_le_mul_right 128 hwlow
      _ ≤ v := by omega

lemma isMinimalUleb_length_le {bytes : List Nat} {v : Nat} {k : Nat}
    (h : IsMinimalUleb bytes v) (hv : v < 128 ^ k) (hk : 1 ≤ k) : bytes.length ≤ k := by
  obtain ⟨hdec, hmin⟩ := h
  rcases hmin with hlast | hzero
  · rcases hbb : bytes.getLast? with _ | b
    · cases bytes with
      | nil => exact absurd hdec (by simp [ulebDecode])
      | cons c t => simp [List.getLast?_eq_none_iff] at hbb
    · by_cases hb0 : b = 0
      · rw [hb0] at hbb; exact absurd hbb hlast
      · have hlow := ulebDecode_getLast_lower bytes v b hdec hbb hb0
        have hlt : 128 ^ (bytes.length - 1) < 128 ^ k := lt_of_le_of_lt hlow hv
        have := (pow_lt_pow_iff_right₀ (a := 128) (by norm_num)).mp hlt
        omega
  · rw [hzero]; simpa using hk


lemma and127_eq_mod (x : Nat) : x &&& 127 = x % 128 := by
  have := Nat.and_pow_two_sub_one_eq_mod x 7
  norm_num at this
  exact this

lemma shr7_eq_div (x : Nat) : x >>> 7 = x / 128 := by
  have := Nat.shiftRight_eq_div_pow x 7
  norm_num at this
  exact this

lemma or128_eq_add {c : Nat} (h : c < 128) : c ||| 128 = c + 128 := by
  have h2 : (128 : Nat) = 2 ^ 7 * 1 := by norm_num
  rw [Nat.lor_comm, h2, ← Nat.mul_add_lt_is_or (by omega : c < 2 ^ 7) 1]
  omega

lemma write_uleb128_go_cons (fuel valv : Nat) :
    write_uleb128_go (fuel + 1) valv =
      if valv >>> 7 = 0 then [valv &&& 0x7f]
      else ((valv &&& 0x7f) ||| 0x80) :: write_uleb128_go fuel (valv >>> 7) := rfl

lemma write_uleb128_go_ne_nil (fuel valv : Nat) (h : 1 ≤ fuel) :
    write_uleb128_go fuel valv ≠ [] := by
  cases fuel with
  | zero => omega
  | succ f =>
    rw [write_uleb128_go_cons]
    split <;> simp

lemma write_uleb128_go_decode : ∀ (fuel valv : Nat), valv < 128 ^ fuel → 1 ≤ fuel →
    ulebDecode (write_uleb128_go fuel valv) = some valv := by
  intro fuel
  induction fuel with
  | zero => intro valv _ h; omega
  | succ f ih =>
    intro valv hv _
    rw [write_uleb128_go_cons]
    by_cases h0 : valv >>> 7 = 0
    · rw [if_pos h0]
      rw [shr7_eq_div] at h0
      have hlt : valv < 128 := by omega
      rw [and127_eq_mod, Nat.mod_eq_of_lt hlt]
      simp [ulebDecode, hlt]
    · rw [if_neg h0]
      have hf : 1 ≤ f := by
        by_contra hf
        have : f = 0 := by omega
        rw [this] at hv
        rw [shr7_eq_div] at h0
        norm_num at hv
        omega
      have hv2 : valv >>> 7 < 128 ^ f := by
        rw [shr7_eq_div]
        rw [pow_succ] at hv
        exact Nat.div_lt_of_lt_mul (by omega)
      have hrec := ih (valv >>> 7) hv2 hf
      obtain ⟨c, t, hct⟩ : ∃ c t, write_uleb128_go f (valv >>> 7) = c :: t := by
        cases hgo : write_uleb128_go f (valv >>> 7) with
        | nil => exact absurd hgo (write_uleb128_go_ne_nil f _ hf)
        | cons c t => exact ⟨c, t, rfl⟩
      rw [hct]
      rw [hct] at hrec
      have hc : valv &&& 127 < 128 := by rw [and127_eq_mod]; omega
      rw [or128_eq_add hc]
      have hrange : 128 ≤ (valv &&& 127) + 128 ∧ (valv &&& 127) + 128 < 256 := by omega
      have hstep : ulebDecode (((valv &&& 127) + 128) :: c :: t)
          = (ulebDecode (c :: t)).map fun w => (((valv &&& 127) + 128) - 128) + 128 * w := by
        simp only [ulebDecode, if_pos hrange]
      rw [hstep, hrec]
      simp only [Option.map_some']
      congr 1
      rw [and127_eq_mod, shr7_eq_div]
      omega

lemma write_uleb128_go_minimal : ∀ (fuel valv : Nat), valv < 128 ^ fuel → 1 ≤ fuel →
    (write_uleb128_go fuel valv).getLast? ≠ some 0 ∨ write_uleb128_go fuel valv = [0] := by
  intro fuel
  induction fuel with
  | zero => intro valv _ h; omega
  | succ f ih =>
    intro valv hv _
    rw [write_uleb128_go_cons]
    by_cases h0 : valv >>> 7 = 0
    · rw [if_pos h0]
      by_cases hz : valv = 0
      · right; rw [hz]; norm_num
      · left
        rw [and127_eq_mod, shr7_eq_div] at *
        have : valv < 128 := by omega
        rw [Nat.mod_eq_of_lt this]
        simp [hz]
    · rw [if_neg h0]
      have hf : 1 ≤ f := by
        by_contra hf
        have : f = 0 := by omega
        rw [this] at hv
        rw [shr7_eq_div] at h0
        norm_num at hv
        omega
      have hv2 : valv >>> 7 < 128 ^ f := by
        rw [shr7_eq_div]
        rw [pow_succ] at hv
        exact Nat.div_lt_of_lt_mul (by omega)
      have hrec := ih (valv >>> 7) hv2 hf
      obtain ⟨c, t, hct⟩ : ∃ c t, write_uleb128_go f (valv >>> 7) = c :: t := by
        cases hgo : write_uleb128_go f (valv >>> 7) with
        | nil => exact absurd hgo (write_uleb128_go_ne_nil f _ hf)
        | cons c t => exact ⟨c, t, rfl⟩
      left
      rw [hct, List.getLast?_cons_cons]
      rw [hct] at hrec
      rcases hrec with hne | hsingle
      · exact hne
      · exfalso
        have hdec0 : ulebDecode (write_uleb128_go f (valv >>> 7)) = some (valv >>> 7) :=
          write_uleb128_go_decode f _ hv2 hf
        rw [hct, hsingle] at hdec0
        simp [ulebDecode] at hdec0
        rw [shr7_eq_div] at h0 hdec0
        omega

lemma isMinimalUleb_read {bytes : List Nat} {v : Nat}
    (h : IsMinimalUleb bytes v) (hv : v < 2 ^ 28) : read_uleb128 bytes = some v := by
  have hlen : bytes.length ≤ 4 := by
    refine isMinimalUleb_length_le h ?_ (by norm_num)
    calc v < 2 ^ 28 := hv
    _ = 128 ^ 4 := by norm_num
  have hloop := read_uleb128_loop_spec bytes v 0 0 h.1 (by norm_num)
  rw [read_uleb128, hloop]
  simp only [Option.map_some']
  rw [if_neg (by omega)]
  have hmod : v % 2 ^ 32 = v := Nat.mod_eq_of_lt (lt_trans hv (by norm_num))
  have h1 : 0 + v * 2 ^ 0 = v := by ring
  rw [h1, hmod]

theorem c5_counterexample :
    IsMinimalUleb [0x80, 0x80, 0x80, 0x80, 0x01] (2 ^ 28)
    ∧ read_uleb128 [0x80, 0x80, 0x80, 0x80, 0x01] = some UINT_MAX
    ∧ UINT_MAX ≠ 2 ^ 28 := by
  refine ⟨⟨by decide, by decide⟩, by decide, by decide⟩

theorem c5_amended :
    (∀ v bytes, v < 2 ^ 28 → IsMinimalUleb bytes v → read_uleb128 bytes = some v)
    ∧ (∀ v bytes, ulebDecode bytes = some v → 5 ≤ bytes.length →
        read_uleb128 bytes = some UINT_MAX) := by
  constructor
  · intro v bytes hv h
    exact isMinimalUleb_read h hv
  · intro v bytes hdec hlen
    have hloop := read_uleb128_loop_spec bytes v 0 0 hdec (by norm_num)
    rw [read_uleb128, hloop]
    simp only [Option.map_some']
    rw [if_pos (by omega)]

theorem c5_amended_witness :
    ((5 : Nat) < 2 ^ 28 ∧ IsMinimalUleb [5] 5 ∧ read_uleb128 [5] = some 5)
    ∧ (ulebDecode [0x80, 0x80, 0x80, 0x80, 0x01] = some (2 ^ 28)
       ∧ 5 ≤ ([0x80, 0x80, 0x80, 0x80, 0x01] : List Nat).length
       ∧ read_uleb128 [0x80, 0x80, 0x80, 0x80, 0x01] = some UINT_MAX) :=
  ⟨⟨by decide, ⟨by decide, by decide⟩,
      c5_amended.1 5 [5] (by decide) ⟨by decide, by decide⟩⟩,
    ⟨by decide, by decide,
      c5_amended.2 (2 ^ 28) [0x80, 0x80, 0x80, 0x80, 0x01] (by decide) (by decide)⟩⟩

lemma write_uleb128_isMinimal {v : Nat} (hv : v < 2 ^ 32) :
    IsMinimalUleb (write_uleb128 v) v := by
  have hmod : v % 2 ^ 32 = v := Nat.mod_eq_of_lt hv
  have hv5 : v < 128 ^ 5 := lt_of_lt_of_le hv (by norm_num)
  constructor
  · rw [write_uleb128, hmod]
    exact write_uleb128_go_decode 5 v hv5 (by norm_num)
  · rw [write_uleb128, hmod]
    exact write_uleb128_go_minimal 5 v hv5 (by norm_num)

lemma read_write_uleb128 {v : Nat} (hv : v < 2 ^ 28) :
    read_uleb128 (write_uleb128 v) = some v :=
  isMinimalUleb_read (write_uleb128_isMinimal (lt_trans hv (by norm_num))) hv

/-- C9.  ULEB128 write-then-read round-trips for every value below
2^28, and `write_uleb128` emits the minimal encoding: its last byte is
nonzero (or it is exactly `[0]`, the one-byte encoding of zero) and no
well-formed encoding of the same value is shorter. -/
theorem c9_roundtrip (v : Nat) (hv : v < 2 ^ 28) :
    read_uleb128 (write_uleb128 v) = some v
    ∧ IsMinimalUleb (write_uleb128 v) v
    ∧ write_uleb128 0 = [0]
    ∧ ∀ bytes, ulebDecode bytes = some v → (write_uleb128 v).length ≤ bytes.length := by
  have hmin : IsMinimalUleb (write_uleb128 v) v :=
    write_uleb128_isMinimal (lt_trans hv (by norm_num))
  refine ⟨read_write_uleb128 hv, hmin, by decide, ?_⟩
  intro bytes hbytes
  have hk : 1 ≤ bytes.length := by
    cases bytes with
    | nil => exact absurd hbytes (by simp [ulebDecode])
    | cons c t => simp
  exact isMinimalUleb_length_le hmin (ulebDecode_lt bytes v hbytes) hk

theorem c9_roundtrip_witness :
    (300 : Nat) < 2 ^ 28
    ∧ (read_uleb128 (write_uleb128 300) = some 300
       ∧ IsMinimalUleb (write_uleb128 300) 300
       ∧ write_uleb128 0 = [0]
       ∧ ∀ bytes, ulebDecode bytes = some 300 → (write_uleb128 300).length ≤ bytes.length) :=
  ⟨by decide, c9_roundtrip 300 (by decide)⟩


/-- `IS_DIR_SEPARATOR` (debugedit.c line 988). -/
def isSep (c : Char) : Bool := c = '/'

/-- Tail handling of `skip_dir_prefix` (debugedit.c lines 1089-1097):
given the part of the path after the prefix, fail unless it is empty or
starts with a separator, then skip the separators. -/
def skip_tail : List Char → Option (List Char)
  | [] => some []
  | c :: rest => if isSep c then some ((c :: rest).dropWhile isSep) else none

/-- `skip_dir_prefix` (debugedit.c lines 1083-1101): the rest of `path`
after `dir_prefix` with leading separators skipped, `none` when `path`
does not start with `dir_prefix` followed by a separator or the end of
the string. -/
def skip_dir_prefix (path dir_prefix : List Char) : Option (List Char) :=
  if dir_prefix.isPrefixOf path then skip_tail (path.drop dir_prefix.length)
  else none

/-- Core decision of `record_file_string_entry_idx` (debugedit.c lines
1260-1312) for a not-yet-seen string index: the string recorded in the
new pool for the original string `old_str`, paired with the returned
flag, which is `true` exactly when a replacement was recorded.  Callers
set `need_strp_update` / `need_line_strp_update` precisely when this
flag is `true` (debugedit.c lines 2365-2375, 2548-2558, 2088-2098). -/
def record_file_string_entry (base_dir dest_dir old_str : List Char) :
    List Char × Bool :=
  match skip_dir_prefix old_str base_dir with
  | none => (old_str, false)
  | some file =>
    (dest_dir ++ (if 0 < file.length then '/' :: file else []), true)

/-- Phase-one skip test at the top of the phase loop of `edit_dwarf2`
(debugedit.c lines 3071-3079): phase 1 only runs when at least one of
the four dirty flags was set during phase 0. -/
def phase1_skipped (strp line_strp string_repl stmt : Bool) : Bool :=
  !strp && !line_strp && !string_repl && !stmt

/-- Phase-one rewrite of a `DW_AT_comp_dir` attribute encoded as inline
`DW_FORM_string` (debugedit.c lines 2443-2481).  The input is the
original NUL-terminated string value; the result is the new value of
those bytes, paired with the "replacement too large" warning flag.
When the replacement fits, the C code copies `dest_dir` over the start
of the buffer and fills with `'/'` up to the retained tail of the
original bytes; the old file name and the terminator stay in place at
the end of the buffer. -/
def edit_comp_dir_string (base_dir dest_dir comp_dir : List Char) :
    List Char × Bool :=
  match skip_dir_prefix comp_dir base_dir with
  | none => (comp_dir, false)
  | some file =>
    let orig_len := comp_dir.length
    let dest_len := dest_dir.length
    let file_len := file.length
    let new_len := dest_len + (if 0 < file_len then 1 + file_len else 0)
    if orig_len < new_len then
      (comp_dir, true)
    else
      (dest_dir ++ List.replicate (orig_len - new_len) '/'
        ++ comp_dir.drop (dest_len + (orig_len - new_len)), false)

/-- C1, counterexample.  With `dest_dir` equal to `base_dir` the
recording step of phase 0 still reports a replacement for any string
with the `base_dir` prefix, so `need_strp_update` is set, contradicting
the claim that all dirty flags remain unset after phase 0. -/
theorem c1_counterexample :
    (record_file_string_entry "/b".toList "/b".toList "/b/x".toList).2 = true := by
  decide

/-- C1, amended.  The flag returned by `record_file_string_entry_idx`
for a fresh index (which is exactly what sets `need_strp_update` or
`need_line_strp_update`) is `true` precisely when the original string
begins with `base_dir`; it does not depend on `dest_dir` at all, so
`dest_dir == base_dir` does not keep the dirty flags unset.  Phase 1 is
skipped (and the file left as is by the rewriter) only in runs where
every dirty flag stayed false. -/
theorem c1_amended :
    (∀ base dest s, (record_file_string_entry base dest s).2 = true
       ↔ ( skip_dir_prefix s base).isSome)
    ∧ (∀ base dest s, (record_file_string_entry base dest s).2
         = (record_file_string_entry base base s).2)
    ∧ phase1_skipped false false false false = true := by
  refine ⟨fun base dest s => ?_, fun base dest s => ?_, by decide⟩
  · unfold record_file_string_entry
    cases h : skip_dir_prefix s base <;> simp [h]
  · unfold record_file_string_entry
    cases h : skip_dir_prefix s base <;> simp [h]

/-- C2, counterexample.  For `base_dir=/build/src`, `dest_dir=/u` and
original inline value `/build/src/pkg`, phase 1 produces the 14 bytes
`/u/////////pkg` — the padding slashes sit between `dest_dir` and the
retained original tail — not `/u/pkg////////` as the claim states. -/
theorem c2_counterexample :
    edit_comp_dir_string "/build/src".toList "/u".toList "/build/src/pkg".toList
      = ("/u/////////pkg".toList, false)
    ∧ "/u/////////pkg".toList ≠ "/u/pkg////////".toList := by
  constructor
  · decide
  · decide


lemma isSep_iff {c : Char} : isSep c = true ↔ c = '/' := by
  simp [isSep]

lemma skip_dir_prefix_structure {path base file : List Char}
    (h : skip_dir_prefix path base = some file) :
    base.length + file.length ≤ path.length
    ∧ path = base ++ List.replicate (path.length - base.length - file.length) '/' ++ file
    ∧ (file ≠ [] → 1 ≤ path.length - base.length - file.length) := by
  unfold skip_dir_prefix at h
  split at h
  case isTrue hpre =>
    have hprefix : base <+: path := List.isPrefixOf_iff_prefix.mp hpre
    have hsplit : path = base ++ path.drop base.length :=
      (List.prefix_iff_eq_append.mp hprefix).symm
    cases hrest : path.drop base.length with
    | nil =>
      rw [hrest] at h hsplit
      simp only [skip_tail, Option.some.injEq] at h
      subst h
      simp only [List.append_nil] at hsplit
      refine ⟨by simp [hsplit], ?_, by simp⟩
      rw [hsplit]
      simp
    | cons c rest =>
      rw [hrest] at h hsplit
      rw [skip_tail] at h
      split at h
      next hsep =>
        simp only [Option.some.injEq] at h
        have hdecomp : (c :: rest).takeWhile isSep ++ (c :: rest).dropWhile isSep
            = c :: rest := by simp
        have hfile : file = (c :: rest).dropWhile isSep := h.symm
        set seps := (c :: rest).takeWhile isSep with hseps
        have hsepall : ∀ x ∈ seps, x = '/' := by
          intro x hx
          exact isSep_iff.mp (List.mem_takeWhile_imp hx)
        have hrepl : seps = List.replicate seps.length '/' :=
          List.eq_replicate_of_mem hsepall
        have hpath : path = base ++ seps ++ file := by
          rw [hsplit, hfile, List.append_assoc, hdecomp]
        have hlen : path.length = base.length + seps.length + file.length := by
          rw [hpath]
          simp only [List.length_append]
        have hk : path.length - base.length - file.length = seps.length := by omega
        have hsep1 : 1 ≤ seps.length := by
          have hcons : seps = c :: (rest.takeWhile isSep) := by
            rw [hseps, List.takeWhile_cons_of_pos hsep]
          simp [hcons]
        refine ⟨by omega, ?_, fun _ => by omega⟩
        rw [hk, ← hrepl]
        exact hpath
      next hsep => exact absurd h (by simp)
  case isFalse => exact absurd h (by simp)

lemma skip_dir_prefix_drop_tail {path base file : List Char}
    (h : skip_dir_prefix path base = some file) :
    path.drop (path.length - (if 0 < file.length then 1 + file.length else 0))
      = if file = [] then [] else '/' :: file := by
  obtain ⟨hle, hpath, hk⟩ := skip_dir_prefix_structure h
  by_cases hf : file = []
  · subst hf
    simp [List.drop_length]
  · have hf0 : 0 < file.length := List.length_pos.mpr hf
    rw [if_pos hf0, if_neg hf]
    set k := path.length - base.length - file.length with hkdef
    have hk1 : 1 ≤ k := hk hf
    have hlen : path.length = base.length + k + file.length := by
      conv_lhs => rw [hpath]
      simp [← hkdef]
      omega
    have hamount : path.length - (1 + file.length) = base.length + (k - 1) := by omega
    rw [hamount]
    conv_lhs => rw [hpath]
    rw [List.append_assoc, List.drop_append, List.drop_append_of_le_length (by simp),
      List.drop_replicate]
    have : k - (k - 1) = 1 := by omega
    rw [this]
    simp

/-- C2, amended.  For an inline `DW_FORM_string` comp_dir whose value
begins with `base_dir`: when the replacement fits, phase 1 keeps the
original byte length and writes `dest_dir`, then padding slashes, then
the retained original tail, which is a `'/'` followed by the old file
part — so `/build/src/pkg` with `base_dir=/build/src`, `dest_dir=/u`
becomes `/u/////////pkg` (not `/u/pkg////////`); when the replacement
would be longer, the warning flag is set and the DIE is unchanged. -/
theorem c2_amended {base dest comp file : List Char}
    (h : skip_dir_prefix comp base = some file) :
    (dest.length + (if 0 < file.length then 1 + file.length else 0) ≤ comp.length →
       edit_comp_dir_string base dest comp
         = (dest ++ List.replicate
              (comp.length - (dest.length
                + (if 0 < file.length then 1 + file.length else 0))) '/'
             ++ (if file = [] then [] else '/' :: file), false)
       ∧ (edit_comp_dir_string base dest comp).1.length = comp.length)
    ∧ (comp.length < dest.length + (if 0 < file.length then 1 + file.length else 0) →
       edit_comp_dir_string base dest comp = (comp, true)) := by
  have hstruct := skip_dir_prefix_structure h
  set new_len := dest.length + (if 0 < file.length then 1 + file.length else 0) with hnew
  constructor
  · intro hfits
    have hdrop : comp.drop (dest.length + (comp.length - new_len))
        = if file = [] then [] else '/' :: file := by
      have hamount : dest.length + (comp.length - new_len)
          = comp.length - (if 0 < file.length then 1 + file.length else 0) := by
        omega
      rw [hamount]
      exact skip_dir_prefix_drop_tail h
    have heq : edit_comp_dir_string base dest comp
        = (dest ++ List.replicate (comp.length - new_len) '/'
            ++ comp.drop (dest.length + (comp.length - new_len)), false) := by
      unfold edit_comp_dir_string
      rw [h]
      simp only [← hnew, if_neg (by omega : ¬ comp.length < new_len)]
    rw [heq, hdrop]
    refine ⟨rfl, ?_⟩
    simp only [List.length_append, List.length_replicate, List.length_drop]
    have hflen : (if file = [] then ([] : List Char) else '/' :: file).length
        = if 0 < file.length then 1 + file.length else 0 := by
      by_cases hf : file = []
      · subst hf; simp
      · rw [if_neg hf, if_pos (List.length_pos.mpr hf)]
        simp [Nat.add_comm]
    omega
  · intro htoolong
    unfold edit_comp_dir_string
    rw [h]
    simp only [← hnew, if_pos htoolong]

/-- C2, witness for the amended theorem at the claim's concrete
scenario (`base_dir=/build/src`, `dest_dir=/u`, value
`/build/src/pkg`). -/
theorem c2_amended_witness :
    skip_dir_prefix "/build/src/pkg".toList "/build/src".toList = some "pkg".toList
    ∧ ("/u".toList.length
          + (if 0 < "pkg".toList.length then 1 + "pkg".toList.length else 0)
          ≤ "/build/src/pkg".toList.length →
        edit_comp_dir_string "/build/src".toList "/u".toList "/build/src/pkg".toList
          = ("/u".toList ++ List.replicate
                ("/build/src/pkg".toList.length - ("/u".toList.length
                  + (if 0 < "pkg".toList.length then 1 + "pkg".toList.length else 0))) '/'
              ++ (if "pkg".toList = [] then [] else '/' :: "pkg".toList), false)
        ∧ (edit_comp_dir_string "/build/src".toList "/u".toList
            "/build/src/pkg".toList).1.length = "/build/src/pkg".toList.length)
    ∧ ("/build/src/pkg".toList.length
         < "/u".toList.length
            + (if 0 < "pkg".toList.length then 1 + "pkg".toList.length else 0) →
        edit_comp_dir_string "/build/src".toList "/u".toList "/build/src/pkg".toList
          = ("/build/src/pkg".toList, true)) := by
  refine ⟨by decide, ?_, ?_⟩
  · exact (c2_amended (by decide)).1
  · exact (c2_amended (by decide)).2


/-- `buf_read_ule16` (debugedit.c lines 379-383): little-endian 16-bit
read at byte offset `pos`.  `edit_dwarf2` wires this reader for
LSB-encoded objects; the MSB case is symmetric. -/
def buf_read_ule16 (data : List Nat) (pos : Nat) : Nat :=
  data.getD pos 0 ||| (data.getD (pos + 1) 0 <<< 8)

/-- `buf_read_ule32` (debugedit.c lines 403-407): little-endian 32-bit
read at byte offset `pos`. -/
def buf_read_ule32 (data : List Nat) (pos : Nat) : Nat :=
  data.getD pos 0 ||| (data.getD (pos + 1) 0 <<< 8)
    ||| (data.getD (pos + 2) 0 <<< 16) ||| (data.getD (pos + 3) 0 <<< 24)

/-- Outcome of the `update_str_offsets` header walk (debugedit.c lines
2850-2892).  The C `while` loop either reaches the end of the section
(`finished`) or leaves early through one of its `break` statements on a
truncated or malformed header (`stopped`); the function has no fatal
error path — its only diagnostic is the non-fatal unused-entry warning.
Each processed table is recorded as (header start, unit_length). -/
inductive StrOffWalk where
  | finished (tables : List (Nat × Nat))
  | stopped (tables : List (Nat × Nat))
deriving Repr, DecidableEq

/-- Prepend a processed table to a walk outcome. -/
def strOffCons (t : Nat × Nat) : StrOffWalk → StrOffWalk
  | .finished ts => .finished (t :: ts)
  | .stopped ts => .stopped (t :: ts)

/-- Entry loop of `update_str_offsets` (debugedit.c lines 2875-2890):
`ptr` advances four bytes per entry while `ptr < endidxp`; returns the
final position.  The fuel (`endidx` at the call site) bounds the number
of iterations, which is at most `endidx / 4 + 1`. -/
def str_off_entries_end : Nat → Nat → Nat → Nat
  | 0, p, _ => p
  | fuel + 1, p, endidx => if p < endidx then str_off_entries_end fuel (p + 4) endidx else p

/-- Header walk of `update_str_offsets` (debugedit.c lines 2857-2892):
per table, read the 4-byte unit_length (reject 0xffffffff and
truncation), the 2-byte version (must be 5) and the 2-byte padding
(must be zero), then skip the entries.  Every iteration advances the
position by at least eight bytes, so `data.length + 1` rounds of fuel
always suffice. -/
def update_str_offsets_walk (data : List Nat) : Nat → Nat → StrOffWalk
  | 0, _ => .stopped []
  | fuel + 1, pos =>
    if data.length ≤ pos then .finished []
    else if data.length - pos < 12 then .stopped []
    else
      let unit_length := buf_read_ule32 data pos
      if unit_length = 0xffffffff ∨ data.length - (pos + 4) < unit_length then .stopped []
      else if buf_read_ule16 data (pos + 4) ≠ 5 then .stopped []
      else if buf_read_ule16 data (pos + 6) ≠ 0 then .stopped []
      else
        let endidx := pos + 4 + unit_length
        strOffCons (pos, unit_length)
          (update_str_offsets_walk data fuel (str_off_entries_end endidx (pos + 8) endidx))

/-- `update_str_offsets` (debugedit.c lines 2850-2892), restricted to
its header walk and control flow: the entry rewrites do not affect
which headers are accepted. -/
def update_str_offsets (data : List Nat) : StrOffWalk :=
  update_str_offsets_walk data (data.length + 1) 0

/-- C6, counterexample.  Three malformed single-table sections — version
4 instead of 5, nonzero padding, and 64-bit unit_length 0xffffffff —
make `update_str_offsets` leave its loop and return normally with no
table processed; nothing aborts (the function contains no fatal error
call), contradicting the claim that such violations are fatal at the
point of detection. -/
theorem c6_counterexample :
    update_str_offsets [4, 0, 0, 0, 4, 0, 0, 0, 0, 0, 0, 0] = .stopped []
    ∧ update_str_offsets [4, 0, 0, 0, 5, 0, 1, 0, 0, 0, 0, 0] = .stopped []
    ∧ update_str_offsets [0xff, 0xff, 0xff, 0xff, 5, 0, 0, 0, 0, 0, 0, 0] = .stopped [] := by
  refine ⟨by decide, by decide, by decide⟩

/-- C6, amended.  A 0xffffffff or oversized unit_length, a version
other than 5, or nonzero padding in the first index-table header makes
`update_str_offsets` stop its walk silently: it returns with no table
processed (and the remainder of the section left untouched) instead of
aborting the process. -/
theorem c6_amended (data : List Nat) (h12 : 12 ≤ data.length)
    (hbad : buf_read_ule32 data 0 = 0xffffffff
      ∨ data.length - 4 < buf_read_ule32 data 0
      ∨ buf_read_ule16 data 4 ≠ 5
      ∨ buf_read_ule16 data 6 ≠ 0) :
    update_str_offsets data = .stopped [] := by
  unfold update_str_offsets update_str_offsets_walk
  rw [if_neg (by omega)]
  rw [if_neg (by omega)]
  by_cases h1 : buf_read_ule32 data 0 = 0xffffffff ∨ data.length - 4 < buf_read_ule32 data 0
  · rw [if_pos (by simpa using h1)]
  · rw [if_neg (by simpa using h1)]
    by_cases h2 : buf_read_ule16 data 4 ≠ 5
    · rw [if_pos h2]
    · rw [if_neg h2]
      have h3 : buf_read_ule16 data 6 ≠ 0 := by tauto
      rw [if_pos h3]

/-- C6, witness for the amended theorem: a 12-byte section whose header
carries nonzero padding. -/
theorem c6_amended_witness :
    12 ≤ ([4, 0, 0, 0, 5, 0, 1, 0, 0, 0, 0, 0] : List Nat).length
    ∧ (buf_read_ule32 [4, 0, 0, 0, 5, 0, 1, 0, 0, 0, 0, 0] 0 = 0xffffffff
        ∨ ([4, 0, 0, 0, 5, 0, 1, 0, 0, 0, 0, 0] : List Nat).length - 4
            < buf_read_ule32 [4, 0, 0, 0, 5, 0, 1, 0, 0, 0, 0, 0] 0
        ∨ buf_read_ule16 [4, 0, 0, 0, 5, 0, 1, 0, 0, 0, 0, 0] 4 ≠ 5
        ∨ buf_read_ule16 [4, 0, 0, 0, 5, 0, 1, 0, 0, 0, 0, 0] 6 ≠ 0)
    ∧ update_str_offsets [4, 0, 0, 0, 5, 0, 1, 0, 0, 0, 0, 0] = .stopped [] :=
  ⟨by decide, by decide,
    c6_amended [4, 0, 0, 0, 5, 0, 1, 0, 0, 0, 0, 0] (by decide) (by decide)⟩


/-- ELF section type `SHT_RELA` (elf.h). -/
def SHT_RELA : Nat := 4

/-- ELF section type `SHT_REL` (elf.h). -/
def SHT_REL : Nat := 9

/-- A relocation record of the per-section index (`typedef struct { ...
} REL`, debugedit.c lines 244-249): the pointer into the section data
(modelled as a byte offset), the effective addend (symbol value plus
entry addend as stored in the `uint32_t` field), and the index of the
originating ELF relocation entry. -/
structure REL where
  ptr : Nat
  addend : Nat
  ndx : Nat
deriving Repr, DecidableEq

/-- The relocation-related state of a debug section (fields `relbuf`,
`reltype` and `rel_updated` of `struct debug_section`, debugedit.c
lines 257-271).  `relbuf = none` models a NULL buffer. -/
structure DebugSectionRel where
  relbuf : Option (List REL)
  reltype : Nat
  rel_updated : Bool
deriving Repr, DecidableEq

/-- Binary-search loop of `find_rel_for_ptr` (debugedit.c lines
443-460) over `recs[l..r)`.  `none` models the C function returning
`relend`.  The interval shrinks every round, so `recs.length + 1` fuel
always suffices. -/
def find_rel_loop (recs : List REL) (xptr : Nat) : Nat → Nat → Nat → Option REL
  | 0, _, _ => none
  | fuel + 1, l, r =>
    if l < r then
      match recs.get? ((l + r) / 2) with
      | none => none
      | some e =>
        if e.ptr < xptr then find_rel_loop recs xptr fuel ((l + r) / 2 + 1) r
        else if xptr < e.ptr then find_rel_loop recs xptr fuel l ((l + r) / 2)
        else some e
    else none

/-- `find_rel_for_ptr` (debugedit.c lines 443-460). -/
def find_rel_for_ptr (xptr : Nat) (recs : List REL) : Option REL :=
  find_rel_loop recs xptr (recs.length + 1) 0 recs.length

/-- `do_read_32_relocated` (debugedit.c lines 462-483): the value of
the relocated 32-bit read at `xptr`, where `inplace` is the in-place
value `do_read_32` yields there.  On a hit the result is the record's
addend for RELA, or the in-place value plus the addend (32-bit
wrapping, `dret` is `uint32_t`) for REL; otherwise the in-place
value. -/
def do_read_32_relocated (xptr : Nat) (inplace : Nat) (sec : DebugSectionRel) : Nat :=
  match sec.relbuf with
  | none => inplace
  | some recs =>
    match find_rel_for_ptr xptr recs with
    | some e =>
      if sec.reltype = SHT_REL then (inplace + e.addend) % 2 ^ 32 else e.addend
    | none => inplace

/-- `do_write_32_relocated` (debugedit.c lines 542-556), acting on the
`last_relptr` / `last_reltype` state left by the preceding
`do_read_32_relocated` (`last = none` models both a NULL `last_relptr`
and `relend`).  Returns the 32-bit value written in place (if any;
`val - addend` wraps on `uint32_t`) together with the updated section
state: only the RELA-hit branch touches `relbuf` (through the record
`last_relptr` points at) and sets `rel_updated`. -/
def do_write_32_relocated (xptr val : Nat) (last : Option REL) (last_reltype : Nat)
    (sec : DebugSectionRel) : Option Nat × DebugSectionRel :=
  match last with
  | some e =>
    if e.ptr = xptr then
      if last_reltype = SHT_REL then
        (some ((2 ^ 32 + val - e.addend % 2 ^ 32) % 2 ^ 32), sec)
      else
        (none,
          { sec with
            relbuf := sec.relbuf.map (List.map fun r =>
              if r.ptr = xptr then { r with addend := val } else r)
            rel_updated := true })
    else (some val, sec)
  | none => (some val, sec)

/-- An ELF relocation entry with explicit addend as `update_rela_data`
sees it (`GElf_Rela` restricted to the fields the function uses; the
symbol index is decoded from `r_info`). -/
structure GElfRela where
  r_offset : Nat
  r_sym : Nat
  r_addend : Int
deriving Repr, DecidableEq

/-- One iteration of the flush loop of `update_rela_data` (debugedit.c
lines 772-793): write `record.addend - sym.st_value` back into the ELF
entry the record came from.  The subtraction is 64-bit two's
complement in C; it is modelled as integer subtraction, which agrees
whenever the result is representable. -/
def update_rela_entry (sym : Nat → Nat) (es : List GElfRela) (e : REL) : List GElfRela :=
  match es.get? e.ndx with
  | none => es
  | some rela => es.set e.ndx { rela with r_addend := (e.addend : Int) - (sym rela.r_sym : Int) }

/-- `update_rela_data` (debugedit.c lines 754-797): when the section's
`rel_updated` flag is clear, only free the relocation buffer; otherwise
re-encode every record's addend into the ELF relocation entries and
free the buffer. -/
def update_rela_data (sym : Nat → Nat) (sec : DebugSectionRel) (entries : List GElfRela) :
    List GElfRela × DebugSectionRel :=
  if sec.rel_updated = false then
    (entries, { sec with relbuf := none })
  else
    ((sec.relbuf.getD []).foldl (update_rela_entry sym) entries,
      { sec with relbuf := none })


lemma sorted_ptr_lt {recs : List REL}
    (hs : recs.Pairwise (fun a b => a.ptr < b.ptr))
    {i j : Nat} {a b : REL} (hij : i < j)
    (ha : recs.get? i = some a) (hb : recs.get? j = some b) : a.ptr < b.ptr := by
  have hj : j < recs.length := by
    by_contra hje
    rw [List.get?_eq_none.mpr (by omega)] at hb
    exact absurd hb (by simp)
  have hi : i < recs.length := by omega
  have hga : recs.get ⟨i, hi⟩ = a := by
    have := List.get?_eq_get hi
    rw [ha] at this
    exact (Option.some.injEq _ _ ▸ this).symm
  have hgb : recs.get ⟨j, hj⟩ = b := by
    have := List.get?_eq_get hj
    rw [hb] at this
    exact (Option.some.injEq _ _ ▸ this).symm
  have := List.pairwise_iff_get.mp hs ⟨i, hi⟩ ⟨j, hj⟩ hij
  rw [hga, hgb] at this
  exact this

lemma find_rel_loop_sound {recs : List REL} {xptr : Nat} :
    ∀ (fuel l r : Nat) (e : REL),
      find_rel_loop recs xptr fuel l r = some e → e ∈ recs ∧ e.ptr = xptr := by
  intro fuel
  induction fuel with
  | zero => intro l r e h; exact absurd h (by simp [find_rel_loop])
  | succ f ih =>
    intro l r e h
    rw [find_rel_loop] at h
    split at h
    · cases hm : recs.get? ((l + r) / 2) with
      | none =>
        simp only [hm] at h
        exact absurd h (by simp)
      | some em =>
        simp only [hm] at h
        split at h
        · exact ih _ _ _ h
        · split at h
          · exact ih _ _ _ h
          · next h1 h2 =>
            have he : em = e := by simpa using h
            subst he
            exact ⟨List.get?_mem hm, by omega⟩
    · exact absurd h (by simp)

lemma find_rel_loop_complete {recs : List REL} {xptr : Nat}
    (hs : recs.Pairwise (fun a b => a.ptr < b.ptr)) :
    ∀ (fuel l r : Nat), r ≤ recs.length → r - l < fuel →
      (∀ t et, l ≤ t → t < r → recs.get? t = some et → et.ptr = xptr →
        ∃ e, find_rel_loop recs xptr fuel l r = some e ∧ e.ptr = xptr) := by
  intro fuel
  induction fuel with
  | zero => intro l r _ hfuel t et hlt hrt _ _; omega
  | succ f ih =>
    intro l r hr hfuel t et hlt hrt hget hptr
    have hlr : l < r := by omega
    rw [find_rel_loop, if_pos hlr]
    have hmr : (l + r) / 2 < r := by omega
    have hml : l ≤ (l + r) / 2 := by omega
    have hmlen : (l + r) / 2 < recs.length := by omega
    cases hm : recs.get? ((l + r) / 2) with
    | none =>
      rw [List.get?_eq_get hmlen] at hm
      exact absurd hm (by simp)
    | some em =>
      simp only [hm]
      by_cases hless : em.ptr < xptr
      · rw [if_pos hless]
        have ht : (l + r) / 2 + 1 ≤ t := by
          by_contra hc
          rcases Nat.lt_or_ge t ((l + r) / 2) with hlt2 | hge
          · have := sorted_ptr_lt hs hlt2 hget hm
            omega
          · have hteq : t = (l + r) / 2 := by omega
            rw [hteq, hm] at hget
            have hee : em = et := by simpa using hget
            subst hee
            omega
        exact ih ((l + r) / 2 + 1) r hr (by omega) t et ht hrt hget hptr
      · rw [if_neg hless]
        by_cases hmore : xptr < em.ptr
        · rw [if_pos hmore]
          have ht : t < (l + r) / 2 := by
            by_contra hc
            rcases Nat.lt_or_ge ((l + r) / 2) t with hlt2 | hge
            · have := sorted_ptr_lt hs hlt2 hm hget
              omega
            · have hteq : t = (l + r) / 2 := by omega
              rw [hteq, hm] at hget
              have hee : em = et := by simpa using hget
              subst hee
              omega
          exact ih l ((l + r) / 2) (by omega) (by omega) t et hlt ht hget hptr
        · rw [if_neg hmore]
          exact ⟨em, rfl, by omega⟩

lemma find_rel_for_ptr_spec {recs : List REL} {xptr : Nat}
    (hs : recs.Pairwise (fun a b => a.ptr < b.ptr)) :
    (∀ e, find_rel_for_ptr xptr recs = some e → e ∈ recs ∧ e.ptr = xptr)
    ∧ ((∃ e ∈ recs, e.ptr = xptr) → ∃ e, find_rel_for_ptr xptr recs = some e) := by
  constructor
  · intro e h
    exact find_rel_loop_sound _ _ _ _ h
  · rintro ⟨e, he, hptr⟩
    obtain ⟨t, ht⟩ := List.get_of_mem he
    have hget : recs.get? t.1 = some e := by
      rw [List.get?_eq_get t.2, ht]
    obtain ⟨e2, he2, _⟩ := find_rel_loop_complete hs (recs.length + 1) 0 recs.length
      (le_refl _) (by omega) t.1 e (by omega) t.2 hget hptr
    exact ⟨e2, he2⟩

lemma rel_ptr_unique {recs : List REL}
    (hs : recs.Pairwise (fun a b => a.ptr < b.ptr))
    {e1 e2 : REL} (h1 : e1 ∈ recs) (h2 : e2 ∈ recs) (hp : e1.ptr = e2.ptr) : e1 = e2 := by
  induction recs with
  | nil => exact absurd h1 (by simp)
  | cons hd tl ih =>
    rcases List.mem_cons.mp h1 with rfl | hm1 <;> rcases List.mem_cons.mp h2 with rfl | hm2
    · rfl
    · have := (List.pairwise_cons.mp hs).1 e2 hm2
      omega
    · have := (List.pairwise_cons.mp hs).1 e1 hm1
      omega
    · exact ih (List.pairwise_cons.mp hs).2 hm1 hm2

/-- C4.  `read_32_relocated` with a built relocation index: for a
section whose records are sorted by pointer, a pointer with a matching
record yields the record's addend under RELA and the in-place value
plus the addend (32-bit wrap) under REL; a pointer with no record
yields the in-place value, as does a section with no buffer at all. -/
theorem c4_read_32_relocated (sec : DebugSectionRel) (recs : List REL)
    (xptr inplace : Nat)
    (hbuf : sec.relbuf = some recs)
    (hs : recs.Pairwise (fun a b => a.ptr < b.ptr)) :
    (∀ e ∈ recs, e.ptr = xptr →
      do_read_32_relocated xptr inplace sec
        = if sec.reltype = SHT_REL then (inplace + e.addend) % 2 ^ 32 else e.addend)
    ∧ ((∀ e ∈ recs, e.ptr ≠ xptr) → do_read_32_relocated xptr inplace sec = inplace)
    ∧ (∀ sec2 : DebugSectionRel, sec2.relbuf = none →
        do_read_32_relocated xptr inplace sec2 = inplace) := by
  refine ⟨?_, ?_, ?_⟩
  · intro e he hptr
    have hfind : find_rel_for_ptr xptr recs = some e := by
      obtain ⟨e2, he2⟩ := (find_rel_for_ptr_spec hs).2 ⟨e, he, hptr⟩
      obtain ⟨hmem2, hptr2⟩ := (find_rel_for_ptr_spec hs).1 e2 he2
      have : e2 = e := rel_ptr_unique hs hmem2 he (by omega)
      rw [← this]
      exact he2
    unfold do_read_32_relocated
    rw [hbuf]
    simp only [hfind]
  · intro hnone
    unfold do_read_32_relocated
    rw [hbuf]
    cases hfind : find_rel_for_ptr xptr recs with
    | none => simp [hfind]
    | some e =>
      obtain ⟨hmem, hptr⟩ := (find_rel_for_ptr_spec hs).1 e hfind
      exact absurd hptr (hnone e hmem)
  · intro sec2 hnone
    unfold do_read_32_relocated
    rw [hnone]

/-- C4, witness: a three-record sorted index; pointer 20 hits the
middle record (addend 7), pointer 21 misses. -/
theorem c4_read_32_relocated_witness :
    (let recs := [⟨10, 3, 0⟩, ⟨20, 7, 1⟩, ⟨30, 9, 2⟩]
     let sec : DebugSectionRel := ⟨some recs, SHT_RELA, false⟩
     sec.relbuf = some recs
     ∧ recs.Pairwise (fun a b => a.ptr < b.ptr)
     ∧ do_read_32_relocated 20 5 sec = 7
     ∧ do_read_32_relocated 21 5 sec = 5) := by
  refine ⟨rfl, by decide, ?_, ?_⟩
  · have h := (c4_read_32_relocated ⟨some [⟨10, 3, 0⟩, ⟨20, 7, 1⟩, ⟨30, 9, 2⟩], SHT_RELA, false⟩
      [⟨10, 3, 0⟩, ⟨20, 7, 1⟩, ⟨30, 9, 2⟩] 20 5 rfl (by decide)).1
      ⟨20, 7, 1⟩ (by decide) rfl
    simpa [SHT_RELA, SHT_REL] using h
  · have h := (c4_read_32_relocated ⟨some [⟨10, 3, 0⟩, ⟨20, 7, 1⟩, ⟨30, 9, 2⟩], SHT_RELA, false⟩
      [⟨10, 3, 0⟩, ⟨20, 7, 1⟩, ⟨30, 9, 2⟩] 21 5 rfl (by decide)).2.1 (by decide)
    exact h

/-- C10.  `update_rela_data` on a section whose `rel_updated` flag is
clear leaves the ELF relocation entries unchanged and only frees the
relocation buffer; and `do_write_32_relocated` — the sole operation
that sets `rel_updated` — sets it exactly on its RELA branch, that is,
when the last relocated read hit a record at the same pointer and the
section kind is not REL. -/
theorem c10_update_rela_frame (sym : Nat → Nat) (sec : DebugSectionRel)
    (entries : List GElfRela) (h : sec.rel_updated = false) :
    update_rela_data sym sec entries = (entries, { sec with relbuf := none })
    ∧ (∀ (xptr val : Nat) (last : Option REL) (ltype : Nat) (sec2 : DebugSectionRel),
        ((do_write_32_relocated xptr val last ltype sec2).2.rel_updated = true
          ↔ sec2.rel_updated = true
            ∨ ((∃ e, last = some e ∧ e.ptr = xptr) ∧ ltype ≠ SHT_REL))) := by
  constructor
  · unfold update_rela_data
    rw [if_pos h]
  · intro xptr val last ltype sec2
    cases last with
    | none => simp [do_write_32_relocated]
    | some e =>
      by_cases hp : e.ptr = xptr
      · by_cases ht : ltype = SHT_REL
        · simp [do_write_32_relocated, hp, ht]
        · simp [do_write_32_relocated, hp, ht]
      · simp [do_write_32_relocated, hp]

/-- C10, witness: a RELA section with the flag clear keeps its single
ELF entry; the flag characterisation applied at a concrete RELA hit. -/
theorem c10_update_rela_frame_witness :
    (⟨some [⟨10, 3, 0⟩], SHT_RELA, false⟩ : DebugSectionRel).rel_updated = false
    ∧ update_rela_data (fun _ => 0) ⟨some [⟨10, 3, 0⟩], SHT_RELA, false⟩ [⟨10, 0, 2⟩]
        = ([⟨10, 0, 2⟩], ⟨none, SHT_RELA, false⟩)
    ∧ ((do_write_32_relocated 10 99 (some ⟨10, 3, 0⟩) SHT_RELA
          ⟨some [⟨10, 3, 0⟩], SHT_RELA, false⟩).2.rel_updated = true
        ↔ (⟨some [⟨10, 3, 0⟩], SHT_RELA, false⟩ : DebugSectionRel).rel_updated = true
          ∨ ((∃ e, (some ⟨10, 3, 0⟩ : Option REL) = some e ∧ e.ptr = 10)
              ∧ SHT_RELA ≠ SHT_REL)) := by
  have h := c10_update_rela_frame (fun _ => 0) ⟨some [⟨10, 3, 0⟩], SHT_RELA, false⟩
    [⟨10, 0, 2⟩] rfl
  exact ⟨rfl, h.1, h.2 10 99 (some ⟨10, 3, 0⟩) SHT_RELA _⟩


/-- `dwarf2_write_le16` (debugedit.c lines 491-496): little-endian
byte serialisation of a 16-bit value. -/
def le16 (v : Nat) : List Nat := [v % 256, (v >>> 8) % 256]

/-- `dwarf2_write_le32` (debugedit.c lines 498-505): little-endian
byte serialisation of a 32-bit value. -/
def le32 (v : Nat) : List Nat := [v % 256, (v >>> 8) % 256, (v >>> 16) % 256, (v >>> 24) % 256]

/-- Truncation of a signed intermediate to the `uint32_t` actually
written (`write_32 (ptr, t->unit_length + t->size_diff)` mixes
`uint32_t` and `ssize_t`). -/
def u32ofInt (x : Int) : Nat := (x % 2 ^ 32).toNat

/-- A NUL-terminated string as it sits in the section bytes. -/
def strBytes (s : List Char) : List Nat := s.map Char.toNat ++ [0]

/-- One entry of a DWARF 2-4 `.debug_line` file table: the file name
and the raw ULEB128 byte sequences of its (dir index, mtime, length)
triple, exactly as stored. -/
structure FileEntry where
  name : List Char
  dir_idx : List Nat
  mtime : List Nat
  flen : List Nat
deriving Repr, DecidableEq

/-- A parsed DWARF 2-4 line table as `get_line_table` and
`read_dwarf4_line` see it (`struct line_table`, debugedit.c lines
181-201, plus the byte content of its dir table, file table and
remaining line-number program). -/
structure LineTable where
  old_idx : Nat
  version : Nat
  unit_length : Nat
  header_length : Nat
  min_instr_len : Nat
  max_op_per_instr : Nat
  default_is_stmt : Nat
  line_base : Nat
  line_range : Nat
  opcode_base : Nat
  opcode_lens : List Nat
  dirs : List (List Char)
  files : List FileEntry
  remainder : List Nat
deriving Repr, DecidableEq

/-- The header bytes of a table, shared between the original section
and the rebuilt one up to the two 32-bit size fields (debugedit.c
lines 1624-1649: the rebuilt header differs from the original only in
`unit_length` and `header_length`). -/
def headerBytes (t : LineTable) (unit_len header_len : Nat) : List Nat :=
  le32 unit_len ++ le16 t.version ++ le32 header_len
    ++ [t.min_instr_len]
    ++ (if 4 ≤ t.version then [t.max_op_per_instr] else [])
    ++ [t.default_is_stmt, t.line_base, t.line_range, t.opcode_base]
    ++ t.opcode_lens

/-- The original serialised bytes of one table: header, dir table with
its terminating NUL, file table with its terminating NUL, then the
line-number program. -/
def oldTableBytes (t : LineTable) : List Nat :=
  headerBytes t t.unit_length t.header_length
    ++ (((t.dirs.map strBytes).flatten ++ [0])
      ++ (((t.files.map fun f => strBytes f.name ++ f.dir_idx ++ f.mtime ++ f.flen).flatten
            ++ [0])
        ++ t.remainder))

/-- Path replacement applied by the emitter to a matching dir or file
name (debugedit.c lines 1660-1674 and 1697-1711): `dest_dir`, plus
`'/'` and the remainder when the remainder is nonempty. -/
def translate_path (base dest p : List Char) : List Char :=
  match skip_dir_prefix p base with
  | none => p
  | some file => dest ++ (if 0 < file.length then '/' :: file else [])

/-- Per-path size delta recorded by `read_dwarf4_line` during phase 0
(debugedit.c lines 1897-1911 for dirs, 1946-1959 for files):
`new_size - old_size`, sizes counting the terminating NUL. -/
def path_delta (base dest p : List Char) : Int :=
  match skip_dir_prefix p base with
  | none => 0
  | some file =>
    ((dest.length : Int) + 1 + (if 0 < file.length then 1 + (file.length : Int) else 0))
      - ((p.length : Int) + 1)

/-- `replace_dirs` flag of a table: some dir path starts with
`base_dir` (set at debugedit.c line 1910). -/
def replace_dirs (base : List Char) (t : LineTable) : Bool :=
  t.dirs.any fun d => ( skip_dir_prefix d base).isSome

/-- `replace_files` flag of a table: some file name starts with
`base_dir` (set at debugedit.c line 1958). -/
def replace_files (base : List Char) (t : LineTable) : Bool :=
  t.files.any fun f => ( skip_dir_prefix f.name base).isSome

/-- `size_diff` accumulated for a table during phase 0: the sum of the
per-dir and per-file deltas. -/
def size_diff (base dest : List Char) (t : LineTable) : Int :=
  ((t.dirs.map (path_delta base dest)).sum)
    + ((t.files.map fun f => path_delta base dest f.name).sum)

/-- Re-encoding of a `(dir_idx, mtime, len)` ULEB128 field by the
emitter (debugedit.c lines 1722-1728): `write_uleb128` of the value
`read_uleb128` decodes from the original bytes. -/
def uleb_rewrite (bytes : List Nat) : List Nat :=
  write_uleb128 ((read_uleb128 bytes).getD 0)

/-- The rebuilt bytes of one table (loop body of `edit_dwarf2_line`,
debugedit.c lines 1609-1739): a verbatim copy when neither replace
flag is set; otherwise the corrected header, the opcode-length table,
the translated dir table, and — only when `replace_files` is set — the
translated file table with re-encoded ULEB128 triples, followed by the
rest of the table verbatim. -/
def newTableBytes (base dest : List Char) (t : LineTable) : List Nat :=
  if ¬ replace_dirs base t ∧ ¬ replace_files base t then
    oldTableBytes t
  else
    headerBytes t
        (u32ofInt ((t.unit_length : Int) + size_diff base dest t))
        (u32ofInt ((t.header_length : Int) + size_diff base dest t))
      ++ (((t.dirs.map fun d =>
              strBytes (if replace_dirs base t then translate_path base dest d else d)).flatten
            ++ [0])
        ++ (if replace_files base t then
              ((t.files.map fun f =>
                  strBytes (translate_path base dest f.name)
                    ++ uleb_rewrite f.dir_idx ++ uleb_rewrite f.mtime
                    ++ uleb_rewrite f.flen).flatten
                ++ [0])
                ++ t.remainder
            else
              ((t.files.map fun f =>
                  strBytes f.name ++ f.dir_idx ++ f.mtime ++ f.flen).flatten ++ [0])
                ++ t.remainder))

/-- The emission loop of `edit_dwarf2_line` over the (already sorted)
table registry: concatenates the rebuilt tables and records each
table's `new_idx`, the cursor position at which its bytes start. -/
def edit_dwarf2_line_emit (base dest : List Char) (tables : List LineTable) :
    List Nat × List Nat :=
  tables.foldl
    (fun acc t => (acc.1 ++ newTableBytes base dest t, acc.2 ++ [acc.1.length]))
    ([], [])

/-- Well-formedness of a parsed table: the serialisation occupies
`unit_length + 4` bytes as the DWARF header field promises, the header
fields fit their wire types, the corrected size fields do not wrap,
the opcode-length table has `opcode_base - 1` entries, and every
ULEB128 triple field stores the minimal encoding of a value below
2^28 (the length-preservation assumption the rewriter relies on). -/
def LineTableWF (base dest : List Char) (t : LineTable) : Prop :=
  (oldTableBytes t).length = t.unit_length + 4
  ∧ t.unit_length < 2 ^ 32
  ∧ t.header_length < 2 ^ 32
  ∧ 0 ≤ (t.unit_length : Int) + size_diff base dest t
  ∧ (t.unit_length : Int) + size_diff base dest t < 2 ^ 32
  ∧ 0 ≤ (t.header_length : Int) + size_diff base dest t
  ∧ (t.header_length : Int) + size_diff base dest t < 2 ^ 32
  ∧ t.opcode_lens.length = t.opcode_base - 1
  ∧ ∀ f ∈ t.files,
      (∃ v < 2 ^ 28, f.dir_idx = write_uleb128 v)
      ∧ (∃ v < 2 ^ 28, f.mtime = write_uleb128 v)
      ∧ (∃ v < 2 ^ 28, f.flen = write_uleb128 v)


lemma strBytes_length (s : List Char) : (strBytes s).length = s.length + 1 := by
  simp [strBytes]

lemma translate_path_strBytes_length (base dest p : List Char) :
    ((strBytes (translate_path base dest p)).length : Int)
      = ((strBytes p).length : Int) + path_delta base dest p := by
  rcases h : skip_dir_prefix p base with _ | file
  · simp [translate_path, path_delta, h]
  · simp only [translate_path, path_delta, h]
    by_cases hf : 0 < file.length
    · simp only [if_pos hf, strBytes_length, List.length_append, List.length_cons]
      push_cast
      ring
    · simp only [if_neg hf, strBytes_length, List.length_append]
      have hf0 : file.length = 0 := by omega
      rw [List.length_nil]
      omega

lemma uleb_rewrite_write {v : Nat} (hv : v < 2 ^ 28) :
    uleb_rewrite (write_uleb128 v) = write_uleb128 v := by
  rw [uleb_rewrite, read_write_uleb128 hv]
  rfl

lemma length_sum_delta {α : Type} (f g : α → List Nat) (d : α → Int) :
    ∀ l : List α, (∀ x ∈ l, ((f x).length : Int) = ((g x).length : Int) + d x) →
      (((l.map f).flatten.length : Int)) = ((l.map g).flatten.length : Int) + (l.map d).sum := by
  intro l
  induction l with
  | nil => intro _; simp
  | cons x t ih =>
    intro h
    have hx := h x (by simp)
    have ht := ih fun y hy => h y (by simp [hy])
    simp only [List.map_cons, List.flatten_cons, List.length_append, List.sum_cons]
    push_cast
    push_cast at hx ht
    omega

lemma path_delta_of_none {base dest p : List Char} (h : skip_dir_prefix p base = none) :
    path_delta base dest p = 0 := by
  unfold path_delta
  rw [h]

lemma replace_dirs_false_sum {base dest : List Char} {t : LineTable}
    (h : replace_dirs base t = false) :
    (t.dirs.map (path_delta base dest)).sum = 0 := by
  unfold replace_dirs at h
  rw [List.any_eq_false] at h
  have : ∀ d ∈ t.dirs, path_delta base dest d = 0 := by
    intro d hd
    have := h d hd
    cases hc : skip_dir_prefix d base with
    | none => exact path_delta_of_none hc
    | some f => rw [hc] at this; exact absurd this (by simp)
  calc (t.dirs.map (path_delta base dest)).sum
      = (t.dirs.map (fun _ => (0 : Int))).sum := by
        congr 1
        exact List.map_congr_left this
  _ = 0 := by simp

lemma replace_files_false_sum {base dest : List Char} {t : LineTable}
    (h : replace_files base t = false) :
    (t.files.map fun f => path_delta base dest f.name).sum = 0 := by
  unfold replace_files at h
  rw [List.any_eq_false] at h
  have : ∀ f ∈ t.files, path_delta base dest f.name = 0 := by
    intro f hf
    have := h f hf
    cases hc : skip_dir_prefix f.name base with
    | none => exact path_delta_of_none hc
    | some g => rw [hc] at this; exact absurd this (by simp)
  calc (t.files.map fun f => path_delta base dest f.name).sum
      = (t.files.map (fun _ => (0 : Int))).sum := by
        congr 1
        exact List.map_congr_left this
  _ = 0 := by simp

lemma headerBytes_length (t : LineTable) (a b : Nat) :
    (headerBytes t a b).length = 15 + (if 4 ≤ t.version then 1 else 0) + t.opcode_lens.length := by
  unfold headerBytes le32 le16
  by_cases hv : 4 ≤ t.version
  · simp only [if_pos hv]
    simp
    omega
  · simp only [if_neg hv]
    simp
    omega

lemma newTableBytes_length {base dest : List Char} {t : LineTable}
    (hWF : LineTableWF base dest t) :
    ((newTableBytes base dest t).length : Int)
      = ((oldTableBytes t).length : Int) + size_diff base dest t := by
  unfold newTableBytes
  split
  · next hflag =>
    have hd0 := @replace_dirs_false_sum base dest t (by simpa using hflag.1)
    have hf0 := @replace_files_false_sum base dest t (by simpa using hflag.2)
    unfold size_diff
    rw [hd0, hf0]
    ring
  · next hflag =>
    have hdirs : (((t.dirs.map fun d =>
          strBytes (if replace_dirs base t then translate_path base dest d else d))
            |>.flatten.length : Nat) : Int)
        = ((t.dirs.map strBytes).flatten.length : Int)
          + (t.dirs.map (path_delta base dest)).sum := by
      by_cases hrd : replace_dirs base t
      · simp only [hrd, if_true]
        exact length_sum_delta _ _ _ t.dirs
          (fun d _ => translate_path_strBytes_length base dest d)
      · simp only [hrd, if_false]
        rw [@replace_dirs_false_sum base dest t (by simpa using hrd)]
        simp
    have hulebs := hWF.2.2.2.2.2.2.2.2
    have hfiles : ∀ hrf : replace_files base t = true,
        (((t.files.map fun f =>
              strBytes (translate_path base dest f.name)
                ++ uleb_rewrite f.dir_idx ++ uleb_rewrite f.mtime ++ uleb_rewrite f.flen)
            |>.flatten.length : Nat) : Int)
          = (((t.files.map fun f => strBytes f.name ++ f.dir_idx ++ f.mtime ++ f.flen)
              |>.flatten.length : Nat) : Int)
            + (t.files.map fun f => path_delta base dest f.name).sum := by
      intro hrf
      apply length_sum_delta
      intro f hf
      obtain ⟨⟨v1, hv1, he1⟩, ⟨v2, hv2, he2⟩, ⟨v3, hv3, he3⟩⟩ := hulebs f hf
      rw [he1, he2, he3, uleb_rewrite_write hv1, uleb_rewrite_write hv2,
        uleb_rewrite_write hv3]
      simp only [List.length_append]
      have := translate_path_strBytes_length base dest f.name
      push_cast
      push_cast at this
      omega
    unfold size_diff
    unfold oldTableBytes
    by_cases hrf : replace_files base t = true
    · rw [if_pos hrf]
      have hf := hfiles hrf
      simp only [List.length_append, headerBytes_length]
      push_cast
      push_cast at hdirs hf
      omega
    · rw [if_neg hrf]
      have hf0 := @replace_files_false_sum base dest t (by simpa using hrf)
      simp only [List.length_append, headerBytes_length]
      push_cast
      push_cast at hdirs hf0
      omega

lemma getD_append_off (l1 l2 : List Nat) (k d : Nat) :
    (l1 ++ l2).getD (l1.length + k) d = l2.getD k d := by
  rw [List.getD_append_right l1 l2 d _ (by omega)]
  congr 1
  omega

lemma buf_read_ule32_cons (a b c d : Nat) (rest : List Nat) :
    buf_read_ule32 (a :: b :: c :: d :: rest) 0
      = a ||| (b <<< 8) ||| (c <<< 16) ||| (d <<< 24) := rfl

lemma buf_read_ule32_le32 (v : Nat) (rest : List Nat) (hv : v < 2 ^ 32) :
    buf_read_ule32 (le32 v ++ rest) 0 = v := by
  have hshape : le32 v ++ rest
      = (v % 256) :: ((v >>> 8) % 256) :: ((v >>> 16) % 256) :: ((v >>> 24) % 256) :: rest := rfl
  rw [hshape, buf_read_ule32_cons]
  rw [or_add_of_lt (show v % 256 < 2 ^ 8 by omega)]
  rw [or_add_of_lt (show v % 256 + (v >>> 8) % 256 * 2 ^ 8 < 2 ^ 16 by omega)]
  rw [or_add_of_lt (show v % 256 + (v >>> 8) % 256 * 2 ^ 8 + (v >>> 16) % 256 * 2 ^ 16
      < 2 ^ 24 by omega)]
  simp only [Nat.shiftRight_eq_div_pow]
  norm_num
  omega

lemma buf_read_ule32_at (pre : List Nat) (v : Nat) (rest : List Nat) (hv : v < 2 ^ 32) :
    buf_read_ule32 (pre ++ (le32 v ++ rest)) pre.length = v := by
  have e0 : (pre ++ (le32 v ++ rest)).getD pre.length 0 = (le32 v ++ rest).getD 0 0 := by
    have h := getD_append_off pre (le32 v ++ rest) 0 0
    simpa using h
  have e1 := getD_append_off pre (le32 v ++ rest) 1 0
  have e2 := getD_append_off pre (le32 v ++ rest) 2 0
  have e3 := getD_append_off pre (le32 v ++ rest) 3 0
  unfold buf_read_ule32
  rw [e0, e1, e2, e3]
  have h := buf_read_ule32_le32 v rest hv
  unfold buf_read_ule32 at h
  simpa using h

lemma buf_read_ule32_shape {data : List Nat} (pre : List Nat) (v : Nat) (rest : List Nat)
    (hv : v < 2 ^ 32) (hdata : data = pre ++ (le32 v ++ rest)) :
    buf_read_ule32 data pre.length = v := by
  subst hdata
  exact buf_read_ule32_at pre v rest hv

lemma headerBytes_read_unit (t : LineTable) (a b : Nat) (rest : List Nat) (ha : a < 2 ^ 32) :
    buf_read_ule32 (headerBytes t a b ++ rest) 0 = a := by
  have h := @buf_read_ule32_shape (headerBytes t a b ++ rest) [] a
    (le16 t.version ++ le32 b ++ [t.min_instr_len]
      ++ (if 4 ≤ t.version then [t.max_op_per_instr] else [])
      ++ [t.default_is_stmt, t.line_base, t.line_range, t.opcode_base]
      ++ t.opcode_lens ++ rest) ha
    (by unfold headerBytes; simp [List.append_assoc])
  simpa using h

lemma headerBytes_read_header_len (t : LineTable) (a b : Nat) (rest : List Nat)
    (hb : b < 2 ^ 32) :
    buf_read_ule32 (headerBytes t a b ++ rest) 6 = b := by
  have h := @buf_read_ule32_shape (headerBytes t a b ++ rest)
    (le32 a ++ le16 t.version) b
    ([t.min_instr_len]
      ++ (if 4 ≤ t.version then [t.max_op_per_instr] else [])
      ++ [t.default_is_stmt, t.line_base, t.line_range, t.opcode_base]
      ++ t.opcode_lens ++ rest) hb
    (by unfold headerBytes; simp [List.append_assoc])
  have hlen : (le32 a ++ le16 t.version).length = 6 := by simp [le32, le16]
  rw [hlen] at h
  exact h

lemma u32ofInt_eq {x : Int} (h0 : 0 ≤ x) (h32 : x < 2 ^ 32) : (u32ofInt x : Int) = x := by
  unfold u32ofInt
  rw [Int.emod_eq_of_lt h0 (by exact_mod_cast h32)]
  exact Int.toNat_of_nonneg h0

lemma emit_go (base dest : List Char) :
    ∀ (tables : List LineTable) (acc1 : List Nat) (acc2 : List Nat),
      tables.foldl
          (fun acc t => (acc.1 ++ newTableBytes base dest t, acc.2 ++ [acc.1.length]))
          (acc1, acc2)
        = (acc1 ++ (tables.map (newTableBytes base dest)).flatten,
           acc2 ++ (List.range tables.length).map
             (fun i => acc1.length
               + ((tables.take i).map (newTableBytes base dest)).flatten.length)) := by
  intro tables
  induction tables with
  | nil => intro acc1 acc2; simp
  | cons t ts ih =>
    intro acc1 acc2
    rw [List.foldl_cons, ih]
    simp only [Prod.mk.injEq]
    constructor
    · simp [List.append_assoc]
    · simp only [List.length_cons]
      rw [List.range_succ_eq_map]
      simp only [List.map_cons, List.map_map, List.take_zero, List.flatten_nil,
        List.length_nil, Nat.add_zero, List.append_assoc, List.singleton_append]
      congr 1
      · simp
        intro a _
        omega

lemma u32ofInt_lt (x : Int) : u32ofInt x < 2 ^ 32 := by
  unfold u32ofInt
  have h1 := Int.emod_nonneg x (show (2 ^ 32 : Int) ≠ 0 by norm_num)
  have h2 := Int.emod_lt_of_pos x (show (0 : Int) < 2 ^ 32 by norm_num)
  omega

/-- C3.  After `edit_dwarf2_line` rebuilds `.debug_line` from the
registry (sorted by old offset): the section is exactly the
concatenation of the rebuilt tables in that order, each table's
`new_idx` is the total size of the tables emitted before it, and for
every well-formed table the rebuilt size is the old size
(`unit_length + 4`) plus its size delta, with the written
`unit_length` and `header_length` fields equal to the old values plus
that same delta. -/
theorem c3_debug_line_emit (base dest : List Char) (tables : List LineTable)
    (hWF : ∀ t ∈ tables, LineTableWF base dest t)
    (hsorted : tables.Pairwise fun a b => a.old_idx ≤ b.old_idx) :
    (edit_dwarf2_line_emit base dest tables).1
        = (tables.map (newTableBytes base dest)).flatten
    ∧ (edit_dwarf2_line_emit base dest tables).2
        = (List.range tables.length).map
            (fun i => ((tables.take i).map (newTableBytes base dest)).flatten.length)
    ∧ ∀ t ∈ tables,
        ((newTableBytes base dest t).length : Int)
            = ((t.unit_length : Int) + 4) + size_diff base dest t
        ∧ ((buf_read_ule32 (newTableBytes base dest t) 0 : Int)
            = (t.unit_length : Int) + size_diff base dest t)
        ∧ ((buf_read_ule32 (newTableBytes base dest t) 6 : Int)
            = (t.header_length : Int) + size_diff base dest t) := by
  refine ⟨?_, ?_, ?_⟩
  · unfold edit_dwarf2_line_emit
    rw [emit_go base dest tables [] []]
    simp
  · unfold edit_dwarf2_line_emit
    rw [emit_go base dest tables [] []]
    simp
  · intro t ht
    obtain ⟨hlen, hu32, hh32, hu0, hu1, hh0, hh1, hol, hulebs⟩ := hWF t ht
    refine ⟨?_, ?_, ?_⟩
    · have h := newTableBytes_length (hWF t ht)
      rw [hlen] at h
      rw [h]
      push_cast
      ring
    · unfold newTableBytes
      split
      · next hflag =>
        have hd0 := @replace_dirs_false_sum base dest t (by simpa using hflag.1)
        have hf0 := @replace_files_false_sum base dest t (by simpa using hflag.2)
        unfold oldTableBytes
        rw [headerBytes_read_unit t _ _ _ hu32]
        unfold size_diff
        rw [hd0, hf0]
        ring
      · next hflag =>
        rw [headerBytes_read_unit t _ _ _ (u32ofInt_lt _)]
        exact u32ofInt_eq hu0 hu1
    · unfold newTableBytes
      split
      · next hflag =>
        have hd0 := @replace_dirs_false_sum base dest t (by simpa using hflag.1)
        have hf0 := @replace_files_false_sum base dest t (by simpa using hflag.2)
        unfold oldTableBytes
        rw [headerBytes_read_header_len t _ _ _ hh32]
        unfold size_diff
        rw [hd0, hf0]
        ring
      · next hflag =>
        rw [headerBytes_read_header_len t
          (u32ofInt ((t.unit_length : Int) + size_diff base dest t))
          (u32ofInt ((t.header_length : Int) + size_diff base dest t)) _
          (u32ofInt_lt _)]
        exact u32ofInt_eq hh0 hh1

/-- C3, witness: a single well-formed version-2 line table with no
paths to replace (size delta 0). -/
theorem c3_debug_line_emit_witness :
    (∀ t ∈ [(⟨0, 2, 13, 9, 1, 0, 1, 0, 1, 1, [], [], [], []⟩ : LineTable)],
        LineTableWF "/b".toList "/d".toList t)
    ∧ ([(⟨0, 2, 13, 9, 1, 0, 1, 0, 1, 1, [], [], [], []⟩ : LineTable)].Pairwise
        fun a b => a.old_idx ≤ b.old_idx)
    ∧ ((edit_dwarf2_line_emit "/b".toList "/d".toList
          [(⟨0, 2, 13, 9, 1, 0, 1, 0, 1, 1, [], [], [], []⟩ : LineTable)]).1
        = ([(⟨0, 2, 13, 9, 1, 0, 1, 0, 1, 1, [], [], [], []⟩ : LineTable)].map
            (newTableBytes "/b".toList "/d".toList)).flatten
      ∧ (edit_dwarf2_line_emit "/b".toList "/d".toList
          [(⟨0, 2, 13, 9, 1, 0, 1, 0, 1, 1, [], [], [], []⟩ : LineTable)]).2
        = (List.range
            [(⟨0, 2, 13, 9, 1, 0, 1, 0, 1, 1, [], [], [], []⟩ : LineTable)].length).map
            (fun i => (([(⟨0, 2, 13, 9, 1, 0, 1, 0, 1, 1, [], [], [], []⟩ : LineTable)].take i).map
              (newTableBytes "/b".toList "/d".toList)).flatten.length)
      ∧ ∀ t ∈ [(⟨0, 2, 13, 9, 1, 0, 1, 0, 1, 1, [], [], [], []⟩ : LineTable)],
          ((newTableBytes "/b".toList "/d".toList t).length : Int)
              = ((t.unit_length : Int) + 4) + size_diff "/b".toList "/d".toList t
          ∧ ((buf_read_ule32 (newTableBytes "/b".toList "/d".toList t) 0 : Int)
              = (t.unit_length : Int) + size_diff "/b".toList "/d".toList t)
          ∧ ((buf_read_ule32 (newTableBytes "/b".toList "/d".toList t) 6 : Int)
              = (t.header_length : Int) + size_diff "/b".toList "/d".toList t)) := by
  have hWF : ∀ t ∈ [(⟨0, 2, 13, 9, 1, 0, 1, 0, 1, 1, [], [], [], []⟩ : LineTable)],
      LineTableWF "/b".toList "/d".toList t := by
    intro t ht
    have heq : t = (⟨0, 2, 13, 9, 1, 0, 1, 0, 1, 1, [], [], [], []⟩ : LineTable) := by
      simpa using ht
    subst heq
    refine ⟨by decide, by decide, by decide, by decide, by decide, by decide, by decide,
      by decide, ?_⟩
    intro f hf
    exact absurd hf (by simp)
  have hsorted : ([(⟨0, 2, 13, 9, 1, 0, 1, 0, 1, 1, [], [], [], []⟩ : LineTable)].Pairwise
      fun a b => a.old_idx ≤ b.old_idx) := by simp
  exact ⟨hWF, hsorted, c3_debug_line_emit _ _ _ hWF hsorted⟩


/-- `IS_DIR_SEPARATOR (*s)` applied to the head of the remaining
input (`false` at the terminating NUL). -/
def headIsSep : List Char → Bool
  | [] => false
  | c :: _ => isSep c

/-- Root handling of `canonicalize_path` (debugedit.c lines 996-1008):
copy one leading separator, a second one for the POSIX `//` namespace
escape when exactly two lead, and skip the rest.  Returns the root
(the output before `droot`) and the remaining input. -/
def splitRoot (s : List Char) : List Char × List Char :=
  match s with
  | [] => ([], [])
  | c :: rest =>
    if isSep c then
      match rest with
      | [] => ([c], [])
      | c2 :: rest2 =>
        if isSep c2 ∧ ¬ headIsSep rest2 then ([c, c2], rest2.dropWhile isSep)
        else ([c], rest.dropWhile isSep)
    else ([], s)

/-- The `..` segment handling of `canonicalize_path` (debugedit.c
lines 1023-1054), acting on the input after the two dots (`rest`) and
the output body so far in reverse order (`rbody`; the C code scans
backwards from `d` towards `droot`, which is the end of `rbody`
here).  `seps`/`seg`/`before` mirror the two backward scans of `pre`;
`window` is the byte range `[pre, d)` used by the `pre + 3 == d`
check; its length is also the number of bytes removed by the
`d = pre` pop. -/
def dotdotStep (rest : List Char) (rbody : List Char) : List Char × List Char :=
  let seps := rbody.takeWhile isSep
  let rest2 := rbody.dropWhile isSep
  if rest2 = [] then
    (rest, '.' :: '.' :: rbody)
  else
    let seg := rest2.takeWhile (fun c => ¬ isSep c)
    let before := rest2.dropWhile (fun c => ¬ isSep c)
    let window := if before.length = 1 then rbody.reverse else seg.reverse ++ seps.reverse
    if window.length = 3 ∧ window.take 2 = ['.', '.'] then
      (rest, '.' :: '.' :: rbody)
    else
      (rest.dropWhile isSep, rbody.drop window.length)

/-- The shared trailing-separator copy at the bottom of the segment
loop (debugedit.c lines 1062-1067): copy one separator, skip the
rest. -/
def sepCopy (sb : List Char × List Char) : List Char × List Char :=
  match sb.1 with
  | [] => sb
  | c :: rest => if isSep c then (rest.dropWhile isSep, c :: sb.2) else sb

/-- One iteration of the segment loop of `canonicalize_path`
(debugedit.c lines 1010-1068): the `.` skip, the `..` handling or the
plain segment copy, followed by the shared separator copy.  Takes and
returns the remaining input and the output body in reverse order. -/
def canonStep (s rbody : List Char) : List Char × List Char :=
  sepCopy
    (if s.head? = some '.' ∧ (s.tail = [] ∨ headIsSep s.tail) then
      (s.tail.dropWhile isSep, rbody)
    else if s.head? = some '.' ∧ s.tail.head? = some '.'
        ∧ (s.tail.tail = [] ∨ headIsSep s.tail.tail) then
      dotdotStep s.tail.tail rbody
    else
      (s.dropWhile (fun c => ¬ isSep c), (s.takeWhile fun c => ¬ isSep c).reverse ++ rbody))

/-- The segment loop (`while (*s)`), with fuel: every iteration
consumes at least one input character (`canonStep_progress`), so
`s.length + 1` rounds always reach the end of the input. -/
def canonLoopGo : Nat → List Char → List Char → List Char
  | 0, _, rbody => rbody
  | fuel + 1, s, rbody =>
    if s = [] then rbody
    else canonLoopGo fuel (canonStep s rbody).1 (canonStep s rbody).2

/-- The segment loop of `canonicalize_path`, from input and
accumulated reverse body to the final reverse body. -/
def canonLoop (s rbody : List Char) : List Char := canonLoopGo (s.length + 1) s rbody

/-- `canonicalize_path` (debugedit.c lines 990-1076): root handling,
the segment loop, the trailing-separator strip (which stops at
`droot`, i.e. never touches the root), and the final `"."` for an
emptied result. -/
def canonicalize_path (s : List Char) : List Char :=
  let rs := splitRoot s
  let rbody := canonLoop rs.2 []
  let out := rs.1 ++ (rbody.dropWhile isSep).reverse
  if out = [] then ['.'] else out

lemma dropWhile_length_le (p : Char → Bool) (l : List Char) :
    (l.dropWhile p).length ≤ l.length := by
  induction l with
  | nil => simp
  | cons c t ih =>
    rw [List.dropWhile_cons]
    split
    · simpa using Nat.le_succ_of_le ih
    · simp

lemma dropWhile_head_false {p : Char → Bool} :
    ∀ (l : List Char) (c : Char) (t : List Char), l.dropWhile p = c :: t → p c = false := by
  intro l
  induction l with
  | nil => intro c t h; simp at h
  | cons a l2 ih =>
    intro c t h
    rw [List.dropWhile_cons] at h
    split at h
    · exact ih c t h
    · next hp =>
      have ha : a = c := by simpa using congrArg (fun x => x.headD a) h
      subst ha
      simpa using hp

lemma sepCopy_fst_le (sb : List Char × List Char) :
    (sepCopy sb).1.length ≤ sb.1.length := by
  obtain ⟨s1, s2⟩ := sb
  simp only [sepCopy]
  cases s1 with
  | nil => simp
  | cons c rest =>
    dsimp only
    split
    · have := dropWhile_length_le isSep rest
      simp only [List.length_cons]
      omega
    · simp

lemma sepCopy_sum (sb : List Char × List Char) :
    (sepCopy sb).2.length + (sepCopy sb).1.length ≤ sb.2.length + sb.1.length := by
  obtain ⟨s1, s2⟩ := sb
  simp only [sepCopy]
  cases s1 with
  | nil => simp
  | cons c rest =>
    dsimp only
    split
    · have := dropWhile_length_le isSep rest
      simp only [List.length_cons]
      omega
    · simp

lemma dotdotStep_fst_le (rest rbody : List Char) :
    (dotdotStep rest rbody).1.length ≤ rest.length := by
  have h1 := dropWhile_length_le isSep rest
  simp only [dotdotStep]
  split
  · dsimp only
    omega
  · split
    all_goals split
    all_goals dsimp only
    all_goals omega

lemma dotdotStep_sum (rest rbody : List Char) :
    (dotdotStep rest rbody).2.length + (dotdotStep rest rbody).1.length
      ≤ rbody.length + 2 + rest.length := by
  have h1 := dropWhile_length_le isSep rest
  simp only [dotdotStep]
  split
  · dsimp only
    simp only [List.length_cons]
    omega
  · split
    all_goals split
    all_goals dsimp only
    all_goals simp only [List.length_cons, List.length_drop]
    all_goals omega

lemma canonStep_progress (s rbody : List Char) (hs : s ≠ []) :
    (canonStep s rbody).1.length < s.length := by
  obtain ⟨c, t, rfl⟩ : ∃ c t, s = c :: t := by
    cases s with
    | nil => exact absurd rfl hs
    | cons c t => exact ⟨c, t, rfl⟩
  unfold canonStep
  split
  · next hdot =>
    have h1 := sepCopy_fst_le ((c :: t).tail.dropWhile isSep, rbody)
    have h2 := dropWhile_length_le isSep (c :: t).tail
    dsimp only at h1
    simp only [List.tail_cons] at h1 h2 ⊢
    simp only [List.length_cons]
    omega
  · split
    · next hdd =>
      have h1 := sepCopy_fst_le (dotdotStep (c :: t).tail.tail rbody)
      have h2 := dotdotStep_fst_le (c :: t).tail.tail rbody
      have h3 : (c :: t).tail.tail.length ≤ t.length := by
        cases t <;> simp
      simp only [List.length_cons]
      omega
    · -- plain segment: either the segment is nonempty (strict drop), or the
      -- head is a separator and the separator copy consumes it
      have htake := List.takeWhile_append_dropWhile
        (fun x => (¬ isSep x : Bool)) (c :: t)
      have hsplit : ((c :: t).takeWhile fun x => ¬ isSep x).length
          + ((c :: t).dropWhile fun x => ¬ isSep x).length = t.length + 1 := by
        have h := congrArg List.length htake
        simp only [List.length_append, List.length_cons] at h
        omega
      by_cases hc : isSep c = true
      · have hdrop : (c :: t).dropWhile (fun x => ¬ isSep x) = c :: t := by
          rw [List.dropWhile_cons_of_neg]
          simp [hc]
        rw [hdrop]
        show (sepCopy (c :: t, _)).1.length < (c :: t).length
        unfold sepCopy
        simp only [if_pos hc]
        have := dropWhile_length_le isSep t
        simp only [List.length_cons]
        omega
      · have htk : (c :: t).takeWhile (fun x => ¬ isSep x)
            = c :: t.takeWhile (fun x => ¬ isSep x) := by
          rw [List.takeWhile_cons_of_pos]
          simpa using hc
        have hlen1 : 1 ≤ ((c :: t).takeWhile fun x => ¬ isSep x).length := by
          rw [htk]; simp
        have h1 := sepCopy_fst_le
          ((c :: t).dropWhile (fun x => ¬ isSep x),
            ((c :: t).takeWhile fun x => ¬ isSep x).reverse ++ rbody)
        dsimp only at h1
        simp only [List.length_cons]
        omega

lemma canonStep_sum (s rbody : List Char) (hs : s ≠ []) :
    (canonStep s rbody).2.length + (canonStep s rbody).1.length
      ≤ rbody.length + s.length := by
  obtain ⟨c, t, rfl⟩ : ∃ c t, s = c :: t := by
    cases s with
    | nil => exact absurd rfl hs
    | cons c t => exact ⟨c, t, rfl⟩
  unfold canonStep
  split
  · have h1 := sepCopy_sum ((c :: t).tail.dropWhile isSep, rbody)
    have h2 := dropWhile_length_le isSep (c :: t).tail
    dsimp only at h1
    simp only [List.tail_cons] at h1 h2 ⊢
    simp only [List.length_cons]
    omega
  · split
    · next hdd =>
      have h1 := sepCopy_sum (dotdotStep (c :: t).tail.tail rbody)
      have h2 := dotdotStep_sum (c :: t).tail.tail rbody
      have ht : 1 ≤ t.length := by
        cases t with
        | nil => simp at hdd
        | cons c2 t2 => simp
      have h3 : (c :: t).tail.tail.length + 2 ≤ t.length + 1 ∨ (c :: t).tail.tail = [] := by
        cases t with
        | nil => right; rfl
        | cons c2 t2 => left; simp
      rcases h3 with h3 | h3
      · simp only [List.length_cons]
        omega
      · rw [h3] at h1 h2 ⊢
        simp only [List.length_nil] at h2
        simp only [List.length_cons]
        omega
    · have htake := List.takeWhile_append_dropWhile
        (fun x => (¬ isSep x : Bool)) (c :: t)
      have hsplit : ((c :: t).takeWhile fun x => ¬ isSep x).length
          + ((c :: t).dropWhile fun x => ¬ isSep x).length = t.length + 1 := by
        have h := congrArg List.length htake
        simp only [List.length_append, List.length_cons] at h
        omega
      have h1 := sepCopy_sum
        ((c :: t).dropWhile (fun x => ¬ isSep x),
          ((c :: t).takeWhile fun x => ¬ isSep x).reverse ++ rbody)
      dsimp only at h1
      simp only [List.length_append, List.length_reverse, List.length_cons] at h1 ⊢
      omega

lemma canonLoopGo_length : ∀ (fuel : Nat) (s rbody : List Char),
    (canonLoopGo fuel s rbody).length ≤ rbody.length + s.length := by
  intro fuel
  induction fuel with
  | zero => intro s rbody; simp [canonLoopGo]
  | succ f ih =>
    intro s rbody
    rw [canonLoopGo]
    split
    · simp
    · next hs =>
      have h1 := ih (canonStep s rbody).1 (canonStep s rbody).2
      have h2 := canonStep_sum s rbody hs
      omega

lemma splitRoot_length (s : List Char) :
    (splitRoot s).1.length + (splitRoot s).2.length ≤ s.length := by
  cases s with
  | nil => simp [splitRoot]
  | cons c rest =>
    simp only [splitRoot]
    split
    · cases rest with
      | nil => simp
      | cons c2 rest2 =>
        dsimp only
        split
        · have := dropWhile_length_le isSep rest2
          simp only [List.length_cons, List.length_nil]
          omega
        · have := dropWhile_length_le isSep (c2 :: rest2)
          simp only [List.length_cons, List.length_nil] at this ⊢
          omega
    · simp

/-- C8.  For every nonempty input, the canonicalized path is never
longer than the input, so the in-place `canonicalize_path (s, s)`
calls never write past the input's original NUL terminator. -/
theorem c8_canonicalize_path_shrinks (s : List Char) (hs : s ≠ []) :
    (canonicalize_path s).length ≤ s.length := by
  have hroot := splitRoot_length s
  have hstrip := dropWhile_length_le isSep (canonLoop (splitRoot s).2 [])
  have hlen : (canonLoop (splitRoot s).2 []).length ≤ (splitRoot s).2.length := by
    have hloop := canonLoopGo_length ((splitRoot s).2.length + 1) (splitRoot s).2 []
    simpa [canonLoop] using hloop
  have hs1 : 1 ≤ s.length := by
    cases s with
    | nil => exact absurd rfl hs
    | cons c t => simp
  simp only [canonicalize_path]
  split
  · simpa using hs1
  · simp only [List.length_append, List.length_reverse]
    omega

/-- C8, witness at the concrete path `/build//./src/../pkg`. -/
theorem c8_canonicalize_path_shrinks_witness :
    "/build//./src/../pkg".toList ≠ []
    ∧ (canonicalize_path "/build//./src/../pkg".toList).length
        ≤ "/build//./src/../pkg".toList.length :=
  ⟨by decide, c8_canonicalize_path_shrinks "/build//./src/../pkg".toList (by decide)⟩

/-- A `..` component as a segment. -/
def dd : List Char := ['.', '.']

/-- A path segment that `canonicalize_path` copies verbatim: nonempty,
separator-free, and neither `.` nor `..`. -/
def NormalSeg (g : List Char) : Prop :=
  g ≠ [] ∧ (∀ c ∈ g, isSep c = false) ∧ g ≠ ['.'] ∧ g ≠ dd

/-- `/`-prefixed concatenation of segments, the shape of everything a
canonical body holds after its first segment. -/
def renderTail (gs : List (List Char)) : List Char :=
  (gs.map fun g => '/' :: g).flatten

/-- A list of segments rendered as a path body with single `/`
separators and no leading or trailing separator. -/
def renderSegs : List (List Char) → List Char
  | [] => []
  | g :: gs => g ++ renderTail gs

lemma renderTail_cons (g : List Char) (gs : List (List Char)) :
    renderTail (g :: gs) = '/' :: (g ++ renderTail gs) := by
  simp [renderTail]

lemma renderTail_append (A B : List (List Char)) :
    renderTail (A ++ B) = renderTail A ++ renderTail B := by
  simp [renderTail]

lemma renderTail_eq (gs : List (List Char)) (h : gs ≠ []) :
    renderTail gs = '/' :: renderSegs gs := by
  cases gs with
  | nil => exact absurd rfl h
  | cons g gs' => rw [renderTail_cons]; rfl

lemma renderSegs_append (A B : List (List Char)) (hA : A ≠ []) :
    renderSegs (A ++ B) = renderSegs A ++ renderTail B := by
  cases A with
  | nil => exact absurd rfl hA
  | cons a A' =>
    show renderSegs (a :: (A' ++ B)) = _
    simp only [renderSegs, renderTail_append]
    simp [List.append_assoc]

lemma tw_app (p : Char → Bool) (l r : List Char) (hl : ∀ c ∈ l, p c = true) :
    (l ++ r).takeWhile p = l ++ r.takeWhile p := by
  induction l with
  | nil => simp
  | cons c t ih =>
    simp only [List.cons_append, List.takeWhile_cons]
    rw [hl c (by simp)]
    simp only [if_true]
    rw [ih fun x hx => hl x (by simp [hx])]

lemma dw_app (p : Char → Bool) (l r : List Char) (hl : ∀ c ∈ l, p c = true) :
    (l ++ r).dropWhile p = r.dropWhile p := by
  induction l with
  | nil => simp
  | cons c t ih =>
    simp only [List.cons_append, List.dropWhile_cons]
    rw [hl c (by simp)]
    simp only [if_true]
    exact ih fun x hx => hl x (by simp [hx])

lemma headIsSep_takeWhile {x : List Char} (h : headIsSep x = false) :
    x.takeWhile isSep = [] := by
  cases x with
  | nil => rfl
  | cons c t =>
    simp only [headIsSep] at h
    simp [List.takeWhile_cons, h]

lemma headIsSep_dropWhile {x : List Char} (h : headIsSep x = false) :
    x.dropWhile isSep = x := by
  cases x with
  | nil => rfl
  | cons c t =>
    simp only [headIsSep] at h
    simp [List.dropWhile_cons, h]

lemma sepCopy_id {x rb : List Char} (h : headIsSep x = false) :
    sepCopy (x, rb) = (x, rb) := by
  cases x with
  | nil => rfl
  | cons c t =>
    simp only [headIsSep] at h
    simp [sepCopy, h]

lemma sepCopy_cons {x rb : List Char} {c : Char} (hc : isSep c = true) :
    sepCopy (c :: x, rb) = (x.dropWhile isSep, c :: rb) := by
  simp [sepCopy, hc]

/-- The reverse body accumulated after `m` retained `..` components,
each followed by the copied separator. -/
def ddSt : Nat → List Char
  | 0 => []
  | m + 1 => '/' :: '.' :: '.' :: ddSt m

lemma ddSt_length (m : Nat) : (ddSt m).length = 3 * m := by
  induction m with
  | zero => rfl
  | succ k ih => simp [ddSt, ih]; ring

lemma ddSt_takeWhile_not (m : Nat) :
    (ddSt m).takeWhile (fun c => ¬ isSep c) = [] := by
  cases m with
  | zero => rfl
  | succ k => simp [ddSt, List.takeWhile_cons, isSep]

lemma ddSt_dropWhile_not (m : Nat) :
    (ddSt m).dropWhile (fun c => ¬ isSep c) = ddSt m := by
  cases m with
  | zero => rfl
  | succ k => simp [ddSt, List.dropWhile_cons, isSep]

lemma dotdotStep_nil (rest : List Char) : dotdotStep rest [] = (rest, ['.', '.']) := by
  simp [dotdotStep]

lemma dotdotStep_ddSt (m : Nat) (rest : List Char) :
    dotdotStep rest (ddSt m) = (rest, '.' :: '.' :: ddSt m) := by
  cases m with
  | zero => exact dotdotStep_nil rest
  | succ k =>
    show dotdotStep rest ('/' :: '.' :: '.' :: ddSt k) = _
    simp only [dotdotStep]
    rw [List.takeWhile_cons_of_pos (by decide), List.takeWhile_cons_of_neg (by decide)]
    rw [List.dropWhile_cons_of_pos (by decide), List.dropWhile_cons_of_neg (by decide)]
    have htw : ∀ l : List Char, ('.' :: l).takeWhile (fun c => ¬ isSep c)
        = '.' :: l.takeWhile (fun c => ¬ isSep c) :=
      fun l => List.takeWhile_cons_of_pos (by decide)
    have hdw : ∀ l : List Char, ('.' :: l).dropWhile (fun c => ¬ isSep c)
        = l.dropWhile (fun c => ¬ isSep c) :=
      fun l => List.dropWhile_cons_of_pos (by decide)
    rw [htw, htw, hdw, hdw]
    rw [ddSt_takeWhile_not, ddSt_dropWhile_not]
    have hlen : ('.' :: '.' :: ddSt k) ≠ [] := by simp
    rw [if_neg hlen]
    have hb : (ddSt k).length ≠ 1 := by rw [ddSt_length]; omega
    rw [if_neg hb]
    rw [if_pos (by simp)]
    rfl

lemma headIsSep_dropWhile_isSep (x : List Char) :
    headIsSep (x.dropWhile isSep) = false := by
  cases h : x.dropWhile isSep with
  | nil => rfl
  | cons c t =>
    show isSep c = false
    exact dropWhile_head_false x c t h

lemma renderSegs_head_not_sep {segs : List (List Char)}
    (h : ∀ g ∈ segs, g ≠ [] ∧ ∀ c ∈ g, isSep c = false) :
    headIsSep (renderSegs segs) = false := by
  cases segs with
  | nil => rfl
  | cons g gs =>
    obtain ⟨hne, hcs⟩ := h g (by simp)
    cases g with
    | nil => exact absurd rfl hne
    | cons c gt =>
      show isSep c = false
      exact hcs c (by simp)

lemma rev_decomp_nil (g : List Char) : (renderSegs [g]).reverse = g.reverse := by
  simp [renderSegs, renderTail]

lemma rev_decomp_cons (A : List (List Char)) (g : List Char) (hA : A ≠ []) :
    (renderSegs (A ++ [g])).reverse = g.reverse ++ '/' :: (renderSegs A).reverse := by
  rw [renderSegs_append A [g] hA, renderTail_eq [g] (by simp)]
  simp [renderSegs, renderTail]

lemma dotdotStep_state (rest g sfx : List Char) (hg : g ≠ [])
    (hgs : ∀ c ∈ g, isSep c = false)
    (hsfx : sfx = [] ∨ (sfx.head? = some '/' ∧ 2 ≤ sfx.length)) :
    dotdotStep rest ('/' :: (g.reverse ++ sfx))
      = if g = dd then (rest, '.' :: '.' :: ('/' :: (g.reverse ++ sfx)))
        else (rest.dropWhile isSep, sfx) := by
  have hgrev : ∀ c ∈ g.reverse, isSep c = false := fun c hc => hgs c (List.mem_reverse.mp hc)
  have hgrne : g.reverse ≠ [] := by simpa using hg
  have hhead : headIsSep (g.reverse ++ sfx) = false := by
    cases hgr : g.reverse with
    | nil => exact absurd hgr hgrne
    | cons c t =>
      have hc : isSep c = false := hgrev c (by rw [hgr]; simp)
      simpa [headIsSep] using hc
  have hgrevp : ∀ c ∈ g.reverse, (decide (¬ (isSep c = true))) = true := by
    intro c hc
    simp [hgrev c hc]
  have hsfxtw : sfx.takeWhile (fun c => ¬ isSep c) = [] := by
    rcases hsfx with h | ⟨h, _⟩
    · rw [h]; rfl
    · cases sfx with
      | nil => rfl
      | cons c t =>
        have : c = '/' := by simpa using h
        subst this
        rw [List.takeWhile_cons_of_neg (by decide)]
  have hsfxdw : sfx.dropWhile (fun c => ¬ isSep c) = sfx := by
    rcases hsfx with h | ⟨h, _⟩
    · rw [h]; rfl
    · cases sfx with
      | nil => rfl
      | cons c t =>
        have : c = '/' := by simpa using h
        subst this
        rw [List.dropWhile_cons_of_neg (by decide)]
  have hlensfx : sfx.length ≠ 1 := by
    rcases hsfx with h | ⟨_, h2⟩
    · rw [h]; simp
    · omega
  simp only [dotdotStep]
  rw [List.takeWhile_cons_of_pos (by decide), headIsSep_takeWhile hhead]
  rw [List.dropWhile_cons_of_pos (by decide), headIsSep_dropWhile hhead]
  rw [if_neg (by simp [hgrne])]
  rw [tw_app _ _ _ hgrevp, hsfxtw, List.append_nil]
  rw [dw_app _ _ _ hgrevp, hsfxdw]
  rw [if_neg hlensfx]
  rw [List.reverse_reverse]
  rw [show (['/'] : List Char).reverse = ['/'] from rfl]
  by_cases hgdd : g = dd
  · subst hgdd
    rw [if_pos (by decide), if_pos rfl]
  · have hcond : ¬ ((g ++ ['/']).length = 3
        ∧ (g ++ ['/']).take 2 = ['.', '.']) := by
      rintro ⟨h1, h2⟩
      have hglen : g.length = 2 := by
        simp only [List.length_append, List.length_cons, List.length_nil] at h1
        omega
      rw [List.take_append_of_le_length (by omega)] at h2
      rw [List.take_of_length_le (by omega)] at h2
      exact hgdd h2
    rw [if_neg hcond, if_neg hgdd]
    congr 1
    have hwl : (g ++ ['/']).length = g.reverse.length + 1 := by simp
    rw [hwl]
    rw [show ('/' :: (g.reverse ++ sfx)) = ('/' :: g.reverse) ++ sfx by simp]
    rw [show g.reverse.length + 1 = ('/' :: g.reverse).length by simp]
    exact List.drop_left _ _

lemma canonStep_dot (s' rbody : List Char) (h2 : s' = [] ∨ headIsSep s' = true) :
    canonStep ('.' :: s') rbody = (s'.dropWhile isSep, rbody) := by
  simp only [canonStep]
  rw [if_pos (by simpa using h2)]
  exact sepCopy_id (headIsSep_dropWhile_isSep s')

lemma canonStep_dotdot (s'' rbody : List Char) (h : s'' = [] ∨ headIsSep s'' = true) :
    canonStep ('.' :: '.' :: s'') rbody = sepCopy (dotdotStep s'' rbody) := by
  simp only [canonStep]
  rw [if_neg (by rintro ⟨_, h | h⟩ <;> simp [headIsSep, isSep] at h)]
  rw [if_pos (⟨rfl, rfl, h⟩ :
    ('.' :: '.' :: s'' : List Char).head? = some '.'
    ∧ ('.' :: '.' :: s'' : List Char).tail.head? = some '.'
    ∧ (('.' :: '.' :: s'' : List Char).tail.tail = []
       ∨ headIsSep ('.' :: '.' :: s'' : List Char).tail.tail = true))]
  rfl

lemma canonStep_normal (g rest rbody : List Char) (hg : NormalSeg g)
    (hrest : rest = [] ∨ headIsSep rest = true) :
    canonStep (g ++ rest) rbody = sepCopy (rest, g.reverse ++ rbody) := by
  obtain ⟨hne, hcs, hdot1, hdot2⟩ := hg
  have hgp : ∀ c ∈ g, (decide (¬ (isSep c = true))) = true := by
    intro c hc
    simp [hcs c hc]
  have hrtw : rest.takeWhile (fun c => ¬ isSep c) = [] := by
    rcases hrest with h | h
    · rw [h]; rfl
    · cases rest with
      | nil => rfl
      | cons c t =>
        rw [List.takeWhile_cons_of_neg]
        simpa [headIsSep] using h
  have hrdw : rest.dropWhile (fun c => ¬ isSep c) = rest := by
    rcases hrest with h | h
    · rw [h]; rfl
    · cases rest with
      | nil => rfl
      | cons c t =>
        rw [List.dropWhile_cons_of_neg]
        simpa [headIsSep] using h
  simp only [canonStep]
  rw [if_neg ?g1, if_neg ?g2]
  case g1 =>
    rintro ⟨hh, ht⟩
    cases g with
    | nil => exact hne rfl
    | cons c gt =>
      have hc : c = '.' := by simpa using hh
      subst hc
      cases gt with
      | nil => exact hdot1 rfl
      | cons c2 gt' =>
        rcases ht with ht | ht
        · simp at ht
        · have : isSep c2 = true := by simpa [headIsSep] using ht
          rw [hcs c2 (by simp)] at this
          exact absurd this (by simp)
  case g2 =>
    rintro ⟨hh, hh2, ht⟩
    cases g with
    | nil => exact hne rfl
    | cons c gt =>
      have hc : c = '.' := by simpa using hh
      subst hc
      cases gt with
      | nil =>
        have : rest.head? = some '.' := by simpa using hh2
        rcases hrest with h | h
        · rw [h] at this; simp at this
        · cases rest with
          | nil => simp at this
          | cons r rt =>
            have hr : r = '.' := by simpa using this
            subst hr
            simp [headIsSep, isSep] at h
      | cons c2 gt' =>
        have hc2 : c2 = '.' := by simpa using hh2
        subst hc2
        cases gt' with
        | nil => exact hdot2 rfl
        | cons c3 gt'' =>
          rcases ht with ht | ht
          · simp at ht
          · have : isSep c3 = true := by simpa [headIsSep] using ht
            rw [hcs c3 (by simp)] at this
            exact absurd this (by simp)
  rw [tw_app _ _ _ hgp, hrtw, List.append_nil]
  rw [dw_app _ _ _ hgp, hrdw]

lemma canonLoopGo_succ (f : Nat) (s rbody : List Char) :
    canonLoopGo (f + 1) s rbody
      = if s = [] then rbody
        else canonLoopGo f (canonStep s rbody).1 (canonStep s rbody).2 := rfl

lemma canonLoopGo_nil (f : Nat) (rbody : List Char) :
    canonLoopGo f [] rbody = rbody := by
  cases f with
  | zero => rfl
  | succ f' => rw [canonLoopGo_succ, if_pos rfl]

lemma canonLoopGo_normals : ∀ (N : List (List Char)) (fuel : Nat) (rb : List Char),
    (∀ g ∈ N, NormalSeg g) → (renderSegs N).length < fuel →
    canonLoopGo fuel (renderSegs N) rb = (renderSegs N).reverse ++ rb := by
  intro N
  induction N with
  | nil =>
    intro fuel rb _ _
    rw [show renderSegs [] = [] from rfl, canonLoopGo_nil]
    simp
  | cons g N' ih =>
    intro fuel rb hN hf
    have hg : NormalSeg g := hN g (by simp)
    have hgne : g ≠ [] := hg.1
    obtain ⟨f, rfl⟩ : ∃ f, fuel = f + 1 := ⟨fuel - 1, by omega⟩
    rw [show renderSegs (g :: N') = g ++ renderTail N' from rfl]
    rw [canonLoopGo_succ]
    rw [if_neg (by simp [hgne])]
    have hrt : renderTail N' = [] ∨ headIsSep (renderTail N') = true := by
      cases N' with
      | nil => left; rfl
      | cons h N'' => right; rw [renderTail_eq _ (by simp)]; rfl
    rw [canonStep_normal g (renderTail N') rb hg hrt]
    cases N' with
    | nil =>
      rw [show renderTail [] = [] from rfl]
      rw [show sepCopy (([] : List Char), g.reverse ++ rb) = ([], g.reverse ++ rb) from rfl]
      rw [canonLoopGo_nil]
      simp
    | cons h N'' =>
      rw [renderTail_eq (h :: N'') (by simp)]
      rw [sepCopy_cons (by decide)]
      have hall : ∀ x ∈ h :: N'', x ≠ [] ∧ ∀ c ∈ x, isSep c = false := by
        intro x hx
        have := hN x (by simp [hx])
        exact ⟨this.1, this.2.1⟩
      rw [headIsSep_dropWhile (renderSegs_head_not_sep hall)]
      have hf' : (renderSegs (h :: N'')).length < f := by
        have h1 : 1 ≤ g.length := by
          cases g with
          | nil => exact absurd rfl hgne
          | cons _ _ => simp
        have h2 : renderSegs (g :: h :: N'') = g ++ '/' :: renderSegs (h :: N'') := by
          rw [show renderSegs (g :: h :: N'') = g ++ renderTail (h :: N'') from rfl,
            renderTail_eq (h :: N'') (by simp)]
        have h3 := congrArg List.length h2
        simp only [List.length_append, List.length_cons] at h3 hf
        omega
      rw [ih f ('/' :: (g.reverse ++ rb)) (fun x hx => hN x (by simp [hx])) hf']
      simp [List.reverse_append, List.append_assoc]

lemma canonLoopGo_dds : ∀ (k : Nat) (fuel m : Nat) (N : List (List Char)),
    (∀ g ∈ N, NormalSeg g) →
    (renderSegs (List.replicate k dd ++ N)).length < fuel →
    canonLoopGo fuel (renderSegs (List.replicate k dd ++ N)) (ddSt m)
      = (renderSegs (List.replicate k dd ++ N)).reverse ++ ddSt m := by
  intro k
  induction k with
  | zero =>
    intro fuel m N hN hf
    simpa using canonLoopGo_normals N fuel (ddSt m) hN (by simpa using hf)
  | succ j ih =>
    intro fuel m N hN hf
    have hrep : List.replicate (j + 1) dd ++ N = dd :: (List.replicate j dd ++ N) := by
      rw [List.replicate_succ]
      rfl
    rw [hrep] at hf ⊢
    obtain ⟨f, rfl⟩ : ∃ f, fuel = f + 1 := ⟨fuel - 1, by omega⟩
    rw [show renderSegs (dd :: (List.replicate j dd ++ N))
      = dd ++ renderTail (List.replicate j dd ++ N) from rfl]
    rw [canonLoopGo_succ]
    rw [if_neg (by simp [dd])]
    have hrt : renderTail (List.replicate j dd ++ N) = []
        ∨ headIsSep (renderTail (List.replicate j dd ++ N)) = true := by
      cases hc : List.replicate j dd ++ N with
      | nil => left; rfl
      | cons h T => right; rw [renderTail_eq _ (by simp [hc])]; rfl
    rw [show (dd ++ renderTail (List.replicate j dd ++ N) : List Char)
      = '.' :: '.' :: renderTail (List.replicate j dd ++ N) from rfl]
    rw [canonStep_dotdot _ _ hrt]
    rw [dotdotStep_ddSt m _]
    cases hc : List.replicate j dd ++ N with
    | nil =>
      rw [show renderTail ([] : List (List Char)) = [] from rfl]
      rw [show sepCopy (([] : List Char), '.' :: '.' :: ddSt m)
        = ([], '.' :: '.' :: ddSt m) from rfl]
      rw [canonLoopGo_nil]
      simp [renderSegs, renderTail, dd]
    | cons h T =>
      rw [renderTail_eq _ (by simp)]
      rw [sepCopy_cons (by decide)]
      have hall : ∀ x ∈ h :: T, x ≠ [] ∧ ∀ c ∈ x, isSep c = false := by
        intro x hx
        rw [← hc] at hx
        rcases List.mem_append.mp hx with hx | hx
        · have hxdd : x = dd := List.eq_of_mem_replicate hx
          subst hxdd
          exact ⟨by decide, by decide⟩
        · have := hN x hx
          exact ⟨this.1, this.2.1⟩
      rw [headIsSep_dropWhile (renderSegs_head_not_sep hall)]
      rw [show ('/' :: '.' :: '.' :: ddSt m) = ddSt (m + 1) from rfl]
      rw [← hc]
      have hf' : (renderSegs (List.replicate j dd ++ N)).length < f := by
        have h2 : renderSegs (dd :: (List.replicate j dd ++ N))
            = dd ++ '/' :: renderSegs (List.replicate j dd ++ N) := by
          rw [show renderSegs (dd :: (List.replicate j dd ++ N))
            = dd ++ renderTail (List.replicate j dd ++ N) from rfl,
            renderTail_eq (List.replicate j dd ++ N) (by rw [hc]; simp)]
        have h3 := congrArg List.length h2
        have hdd : (dd : List Char).length = 2 := rfl
        simp only [List.length_append, List.length_cons] at h3 hf
        omega
      rw [ih f (m + 1) N hN hf']
      simp [ddSt, List.reverse_cons, List.append_assoc]

lemma canonLoop_id (k : Nat) (N : List (List Char)) (hN : ∀ g ∈ N, NormalSeg g) :
    canonLoop (renderSegs (List.replicate k dd ++ N)) []
      = (renderSegs (List.replicate k dd ++ N)).reverse := by
  have := canonLoopGo_dds k ((renderSegs (List.replicate k dd ++ N)).length + 1) 0 N hN
    (by omega)
  rw [show ddSt 0 = [] from rfl] at this
  rw [canonLoop]
  simpa using this

lemma splitRoot_fst_shape (s : List Char) :
    (splitRoot s).1 = [] ∨ (splitRoot s).1 = ['/'] ∨ (splitRoot s).1 = ['/', '/'] := by
  cases s with
  | nil => left; rfl
  | cons c rest =>
    simp only [splitRoot]
    split
    · next hc =>
      have hc' : c = '/' := isSep_iff.mp hc
      subst hc'
      cases rest with
      | nil => right; left; rfl
      | cons c2 rest2 =>
        dsimp only
        split
        · next h2 =>
          have hc2 : c2 = '/' := isSep_iff.mp h2.1
          subst hc2
          right; right; rfl
        · right; left; rfl
    · left; rfl

lemma splitRoot_snd_head (s : List Char) : headIsSep (splitRoot s).2 = false := by
  cases s with
  | nil => rfl
  | cons c rest =>
    simp only [splitRoot]
    split
    · next hc =>
      cases rest with
      | nil => rfl
      | cons c2 rest2 =>
        dsimp only
        split
        · exact headIsSep_dropWhile_isSep rest2
        · exact headIsSep_dropWhile_isSep (c2 :: rest2)
    · next hc =>
      show isSep c = false
      simpa using hc

lemma splitRoot_fix (root x : List Char)
    (hroot : root = [] ∨ root = ['/'] ∨ root = ['/', '/'])
    (hx : headIsSep x = false) :
    splitRoot (root ++ x) = (root, x) := by
  rcases hroot with h | h | h <;> subst h
  · cases x with
    | nil => rfl
    | cons c t =>
      have hc : isSep c = false := by simpa [headIsSep] using hx
      simp [splitRoot, hc]
  · show splitRoot ('/' :: x) = _
    simp only [splitRoot]
    rw [if_pos (by decide)]
    cases x with
    | nil => rfl
    | cons c2 rest2 =>
      have hc2 : isSep c2 = false := by simpa [headIsSep] using hx
      dsimp only
      rw [if_neg (by simp [hc2])]
      rw [headIsSep_dropWhile hx]
  · show splitRoot ('/' :: '/' :: x) = _
    simp only [splitRoot]
    rw [if_pos (by decide)]
    rw [if_pos ⟨by decide, by simp [hx]⟩]
    rw [headIsSep_dropWhile hx]

lemma revRender_head_not_sep (A : List (List Char)) (g : List Char)
    (h : ∀ x ∈ A ++ [g], x ≠ [] ∧ ∀ c ∈ x, isSep c = false) :
    headIsSep ((renderSegs (A ++ [g])).reverse) = false := by
  obtain ⟨hgne, hgs⟩ := h g (by simp)
  have hdec : ∃ sfx, (renderSegs (A ++ [g])).reverse = g.reverse ++ sfx := by
    cases A with
    | nil => exact ⟨[], by simpa using rev_decomp_nil g⟩
    | cons a A' => exact ⟨'/' :: (renderSegs (a :: A')).reverse, rev_decomp_cons _ g (by simp)⟩
  obtain ⟨sfx, hsfx⟩ := hdec
  rw [hsfx]
  cases hgr : g.reverse with
  | nil => exact absurd (by simpa using hgr) hgne
  | cons c t =>
    have hc : isSep c = false := hgs c (by
      have : c ∈ g.reverse := by rw [hgr]; simp
      exact List.mem_reverse.mp this)
    simpa [headIsSep] using hc

lemma segs_ok (k : Nat) (N : List (List Char)) (hN : ∀ g ∈ N, NormalSeg g) :
    ∀ x ∈ List.replicate k dd ++ N, x ≠ [] ∧ ∀ c ∈ x, isSep c = false := by
  intro x hx
  rcases List.mem_append.mp hx with hx | hx
  · have hxdd : x = dd := List.eq_of_mem_replicate hx
    subst hxdd
    exact ⟨by decide, by decide⟩
  · have := hN x hx
    exact ⟨this.1, this.2.1⟩

lemma canonical_fixed (root : List Char) (k : Nat) (N : List (List Char))
    (hroot : root = [] ∨ root = ['/'] ∨ root = ['/', '/'])
    (hN : ∀ g ∈ N, NormalSeg g)
    (hne : root ++ renderSegs (List.replicate k dd ++ N) ≠ []) :
    canonicalize_path (root ++ renderSegs (List.replicate k dd ++ N))
      = root ++ renderSegs (List.replicate k dd ++ N) := by
  have hok := segs_ok k N hN
  have hx : headIsSep (renderSegs (List.replicate k dd ++ N)) = false :=
    renderSegs_head_not_sep hok
  simp only [canonicalize_path]
  rw [splitRoot_fix root _ hroot hx]
  show (if root ++ ((canonLoop (renderSegs (List.replicate k dd ++ N)) []).dropWhile
      isSep).reverse = [] then ['.']
    else root ++ ((canonLoop (renderSegs (List.replicate k dd ++ N)) []).dropWhile
      isSep).reverse) = _
  rw [canonLoop_id k N hN]
  have hstrip : ((renderSegs (List.replicate k dd ++ N)).reverse.dropWhile isSep).reverse
      = renderSegs (List.replicate k dd ++ N) := by
    rcases hc : List.replicate k dd ++ N with _ | ⟨h, T⟩
    · simp [renderSegs]
    · rcases List.eq_nil_or_concat (h :: T) with habs | ⟨A, g, hAg⟩
      · simp at habs
      · rw [List.concat_eq_append] at hAg
        rw [hAg]
        rw [headIsSep_dropWhile (revRender_head_not_sep A g (by rw [← hAg, ← hc]; exact hok))]
        rw [List.reverse_reverse]
  rw [hstrip]
  rw [if_neg hne]

/-- Loop-boundary states of the segment loop: the output body so far
(in reverse) is empty, or is a canonical segment list (a run of `..`
then normal segments) with the trailing separator already copied. -/
def StInv (rb : List Char) : Prop :=
  rb = [] ∨ ∃ k N, (∀ g ∈ N, NormalSeg g) ∧ List.replicate k dd ++ N ≠ []
    ∧ rb = '/' :: (renderSegs (List.replicate k dd ++ N)).reverse

/-- Final shape of the loop output: after the trailing-separator strip
and the re-reversal, the body is a canonical segment list. -/
def FinalForm (r : List Char) : Prop :=
  ∃ k N, (∀ g ∈ N, NormalSeg g)
    ∧ (r.dropWhile isSep).reverse = renderSegs (List.replicate k dd ++ N)

lemma renderSegs_ne_nil {segs : List (List Char)}
    (h : ∀ g ∈ segs, g ≠ [] ∧ ∀ c ∈ g, isSep c = false) (hs : segs ≠ []) :
    renderSegs segs ≠ [] := by
  cases segs with
  | nil => exact absurd rfl hs
  | cons g gs =>
    have := (h g (by simp)).1
    cases g with
    | nil => exact absurd rfl this
    | cons c gt => simp [renderSegs]

lemma concat_inj {X Y : List (List Char)} {a b : List Char}
    (h : X ++ [a] = Y ++ [b]) : X = Y ∧ a = b := by
  obtain ⟨h1, h2⟩ := List.append_inj' h (by simp)
  exact ⟨h1, by simpa using h2⟩

lemma StInv_final {rb : List Char} (h : StInv rb) : FinalForm rb := by
  rcases h with h | ⟨k, N, hN, hkN, h⟩
  · subst h
    exact ⟨0, [], by simp, by simp [renderSegs]⟩
  · subst h
    refine ⟨k, N, hN, ?_⟩
    rw [List.dropWhile_cons_of_pos (by decide)]
    rcases List.eq_nil_or_concat (List.replicate k dd ++ N) with habs | ⟨A, g, hAg⟩
    · exact absurd habs hkN
    · rw [List.concat_eq_append] at hAg
      rw [hAg]
      rw [headIsSep_dropWhile (revRender_head_not_sep A g
        (by rw [← hAg]; exact segs_ok k N hN))]
      rw [List.reverse_reverse]

lemma rev_decomp (A : List (List Char)) (g : List Char) :
    (renderSegs (A ++ [g])).reverse
      = g.reverse ++ (if A = [] then [] else '/' :: (renderSegs A).reverse) := by
  cases A with
  | nil => rw [if_pos rfl, List.append_nil]; exact rev_decomp_nil g
  | cons a A' => rw [if_neg (by simp)]; exact rev_decomp_cons (a :: A') g (by simp)

lemma revRender_canonical_head (k : Nat) (N : List (List Char))
    (hN : ∀ g ∈ N, NormalSeg g) (hkN : List.replicate k dd ++ N ≠ []) :
    headIsSep ((renderSegs (List.replicate k dd ++ N)).reverse) = false := by
  rcases List.eq_nil_or_concat (List.replicate k dd ++ N) with habs | ⟨A, g, hAg⟩
  · exact absurd habs hkN
  · rw [List.concat_eq_append] at hAg
    rw [hAg]
    exact revRender_head_not_sep A g (by rw [← hAg]; exact segs_ok k N hN)

lemma FinalForm_noStrip (k : Nat) (N : List (List Char))
    (hN : ∀ g ∈ N, NormalSeg g) (hkN : List.replicate k dd ++ N ≠ []) :
    FinalForm ((renderSegs (List.replicate k dd ++ N)).reverse) :=
  ⟨k, N, hN, by
    rw [headIsSep_dropWhile (revRender_canonical_head k N hN hkN), List.reverse_reverse]⟩

lemma revRender_replicate : ∀ k : Nat,
    (renderSegs (List.replicate (k + 1) dd)).reverse = '.' :: '.' :: ddSt k := by
  intro k
  induction k with
  | zero => rfl
  | succ k ih =>
    have hrep : List.replicate (k + 1 + 1) dd = List.replicate (k + 1) dd ++ [dd] :=
      List.replicate_succ' (k + 1) dd
    rw [hrep, rev_decomp_cons _ _ (by simp), ih]
    rfl

lemma dotdotStep_canonical (s'' : List Char) (k : Nat) (N : List (List Char))
    (hN : ∀ g ∈ N, NormalSeg g) (hkN : List.replicate k dd ++ N ≠ []) :
    (N = [] ∧ dotdotStep s'' ('/' :: (renderSegs (List.replicate k dd ++ N)).reverse)
        = (s'', (renderSegs (List.replicate (k + 1) dd)).reverse))
    ∨ (∃ N₀ g₀, N = N₀ ++ [g₀] ∧
        dotdotStep s'' ('/' :: (renderSegs (List.replicate k dd ++ N)).reverse)
        = (s''.dropWhile isSep,
           if List.replicate k dd ++ N₀ = [] then []
           else '/' :: (renderSegs (List.replicate k dd ++ N₀)).reverse)) := by
  have hsfx_ok : ∀ (A : List (List Char)),
      (∀ x ∈ A, x ≠ [] ∧ ∀ c ∈ x, isSep c = false) →
      (if A = [] then [] else '/' :: (renderSegs A).reverse) = []
      ∨ ((if A = [] then ([] : List Char) else '/' :: (renderSegs A).reverse).head? = some '/'
         ∧ 2 ≤ (if A = [] then ([] : List Char) else '/' :: (renderSegs A).reverse).length) := by
    intro A hA
    by_cases hAe : A = []
    · left; rw [if_pos hAe]
    · right
      rw [if_neg hAe]
      refine ⟨rfl, ?_⟩
      have h1 : renderSegs A ≠ [] := renderSegs_ne_nil hA hAe
      have h2 : 1 ≤ (renderSegs A).length := by
        cases hre : renderSegs A with
        | nil => exact absurd hre h1
        | cons x y => simp
      simp only [List.length_cons, List.length_reverse]
      omega
  rcases List.eq_nil_or_concat N with hNnil | ⟨N₀, g₀, hN₀⟩
  · left
    subst hNnil
    refine ⟨rfl, ?_⟩
    rw [List.append_nil] at hkN ⊢
    obtain ⟨k₀, rfl⟩ : ∃ k₀, k = k₀ + 1 := by
      cases k with
      | zero => simp at hkN
      | succ k₀ => exact ⟨k₀, rfl⟩
    rw [revRender_replicate k₀]
    rw [show ('/' :: '.' :: '.' :: ddSt k₀) = ddSt (k₀ + 1) from rfl]
    rw [dotdotStep_ddSt (k₀ + 1) s'']
    rw [revRender_replicate (k₀ + 1)]
  · right
    rw [List.concat_eq_append] at hN₀
    refine ⟨N₀, g₀, hN₀, ?_⟩
    subst hN₀
    have hassoc : List.replicate k dd ++ (N₀ ++ [g₀])
        = (List.replicate k dd ++ N₀) ++ [g₀] := by
      rw [List.append_assoc]
    have hg₀ : NormalSeg g₀ := hN g₀ (by simp)
    have hA_ok : ∀ x ∈ List.replicate k dd ++ N₀, x ≠ [] ∧ ∀ c ∈ x, isSep c = false := by
      intro x hx
      rcases List.mem_append.mp hx with hx | hx
      · have hxdd : x = dd := List.eq_of_mem_replicate hx
        subst hxdd
        exact ⟨by decide, by decide⟩
      · have := hN x (by simp [hx])
        exact ⟨this.1, this.2.1⟩
    rw [hassoc, rev_decomp (List.replicate k dd ++ N₀) g₀]
    rw [dotdotStep_state s'' g₀ _ hg₀.1 hg₀.2.1 (hsfx_ok _ hA_ok)]
    rw [if_neg hg₀.2.2.2]

lemma canonLoopGo_shape : ∀ (fuel : Nat) (s rb : List Char), s.length < fuel →
    headIsSep s = false → StInv rb → FinalForm (canonLoopGo fuel s rb) := by
  intro fuel
  induction fuel with
  | zero => intro s rb hf _ _; omega
  | succ f ih =>
    intro s rb hf hs hinv
    cases s with
    | nil => rw [canonLoopGo_nil]; exact StInv_final hinv
    | cons c s' =>
      rw [canonLoopGo_succ, if_neg (by simp)]
      have hc : isSep c = false := by simpa [headIsSep] using hs
      by_cases h1 : c = '.' ∧ (s' = [] ∨ headIsSep s' = true)
      · obtain ⟨hcdot, hs'⟩ := h1
        subst hcdot
        rw [canonStep_dot s' rb hs']
        refine ih (s'.dropWhile isSep) rb ?_ (headIsSep_dropWhile_isSep s') hinv
        have := dropWhile_length_le isSep s'
        simp only [List.length_cons] at hf
        omega
      · by_cases h2 : c = '.' ∧ s'.head? = some '.' ∧ (s'.tail = [] ∨ headIsSep s'.tail = true)
        · obtain ⟨hcdot, hh2, ht2⟩ := h2
          subst hcdot
          obtain ⟨s'', rfl⟩ : ∃ s'', s' = '.' :: s'' := by
            cases s' with
            | nil => simp at hh2
            | cons a t =>
              have ha : a = '.' := by simpa using hh2
              subst ha
              exact ⟨t, rfl⟩
          simp only [List.tail_cons] at ht2
          rw [canonStep_dotdot s'' rb ht2]
          rcases hinv with hrb | ⟨k, N, hN, hkN, hrb⟩
          · subst hrb
            rw [dotdotStep_nil]
            rcases ht2 with h | h
            · subst h
              rw [show sepCopy (([] : List Char), ['.', '.']) = ([], ['.', '.']) from rfl]
              rw [canonLoopGo_nil]
              exact ⟨1, [], by simp, by decide⟩
            · obtain ⟨c₀, t₀, rfl⟩ : ∃ c₀ t₀, s'' = c₀ :: t₀ := by
                cases s'' with
                | nil => simp [headIsSep] at h
                | cons a t => exact ⟨a, t, rfl⟩
              have hc₀ : isSep c₀ = true := by simpa [headIsSep] using h
              have hc₀' : c₀ = '/' := isSep_iff.mp hc₀
              subst hc₀'
              rw [sepCopy_cons (by decide)]
              refine ih (t₀.dropWhile isSep) (('/' : Char) :: ['.', '.'])
                ?_ (headIsSep_dropWhile_isSep t₀) ?_
              · have := dropWhile_length_le isSep t₀
                simp only [List.length_cons] at hf
                omega
              · right
                exact ⟨1, [], by simp, by simp, by decide⟩
          · subst hrb
            rcases dotdotStep_canonical s'' k N hN hkN with ⟨hNnil, heq⟩ | ⟨N₀, g₀, hN₀, heq⟩
            · subst hNnil
              rw [heq]
              rcases ht2 with h | h
              · subst h
                rw [sepCopy_id (by rfl)]
                rw [canonLoopGo_nil]
                have := FinalForm_noStrip (k + 1) [] (by simp) (by simp)
                simpa using this
              · obtain ⟨c₀, t₀, rfl⟩ : ∃ c₀ t₀, s'' = c₀ :: t₀ := by
                  cases s'' with
                  | nil => simp [headIsSep] at h
                  | cons a t => exact ⟨a, t, rfl⟩
                have hc₀ : isSep c₀ = true := by simpa [headIsSep] using h
                have hc₀' : c₀ = '/' := isSep_iff.mp hc₀
                subst hc₀'
                rw [sepCopy_cons (by decide)]
                refine ih (t₀.dropWhile isSep)
                  (('/' : Char) :: (renderSegs (List.replicate (k + 1) dd)).reverse)
                  ?_ (headIsSep_dropWhile_isSep t₀) ?_
                · have := dropWhile_length_le isSep t₀
                  simp only [List.length_cons] at hf
                  omega
                · right
                  exact ⟨k + 1, [], by simp, by simp, by simp⟩
            · rw [heq]
              rw [sepCopy_id (headIsSep_dropWhile_isSep s'')]
              refine ih (s''.dropWhile isSep)
                (if List.replicate k dd ++ N₀ = [] then []
                 else '/' :: (renderSegs (List.replicate k dd ++ N₀)).reverse)
                ?_ (headIsSep_dropWhile_isSep s'') ?_
              · have := dropWhile_length_le isSep s''
                simp only [List.length_cons] at hf
                omega
              · by_cases hA : List.replicate k dd ++ N₀ = []
                · rw [if_pos hA]
                  left; rfl
                · rw [if_neg hA]
                  right
                  exact ⟨k, N₀, fun g hg => hN g (by rw [hN₀]; simp [hg]), hA, rfl⟩
        · -- normal-segment branch
          have hgc : (c :: s').takeWhile (fun c => ¬ isSep c)
              = c :: s'.takeWhile (fun c => ¬ isSep c) :=
            List.takeWhile_cons_of_pos (by simp [hc])
          have hsplit : (c :: s')
              = (c :: s').takeWhile (fun c => ¬ isSep c)
                ++ (c :: s').dropWhile (fun c => ¬ isSep c) :=
            (List.takeWhile_append_dropWhile _ _).symm
          have hgnorm : NormalSeg ((c :: s').takeWhile (fun c => ¬ isSep c)) := by
            refine ⟨by rw [hgc]; simp, ?_, ?_, ?_⟩
            · intro x hx
              have := List.mem_takeWhile_imp hx
              simpa using this
            · intro hg
              rw [hgc] at hg
              have hc' : c = '.' := by simpa using congrArg (fun l => l.headD ' ') hg
              have htw : s'.takeWhile (fun c => ¬ isSep c) = [] := by
                have := congrArg List.tail hg
                simpa using this
              apply h1
              refine ⟨hc', ?_⟩
              cases hs'c : s' with
              | nil => left; rfl
              | cons a t =>
                right
                rw [hs'c] at htw
                rw [List.takeWhile_cons] at htw
                split at htw
                · simp at htw
                · next hsep =>
                  show isSep a = true
                  simpa using hsep
            · intro hg
              rw [hgc] at hg
              have hc' : c = '.' := by simpa [dd] using congrArg (fun l => l.headD ' ') hg
              have htw : s'.takeWhile (fun c => ¬ isSep c) = ['.'] := by
                have := congrArg List.tail hg
                simpa [dd] using this
              obtain ⟨t, hs't⟩ : ∃ t, s' = '.' :: t := by
                cases hs'c : s' with
                | nil => rw [hs'c] at htw; simp at htw
                | cons a t =>
                  rw [hs'c, List.takeWhile_cons] at htw
                  split at htw
                  · have ha : a = '.' := by
                      simpa using congrArg (fun l => l.headD ' ') htw
                    exact ⟨t, by rw [ha]⟩
                  · simp at htw
              apply h2
              refine ⟨hc', by rw [hs't]; rfl, ?_⟩
              rw [hs't] at htw
              rw [List.takeWhile_cons_of_pos (by decide)] at htw
              have htw2 : t.takeWhile (fun c => ¬ isSep c) = [] := by
                simpa using congrArg List.tail htw
              rw [hs't]
              cases htc : t with
              | nil => left; rfl
              | cons a u =>
                right
                rw [htc, List.takeWhile_cons] at htw2
                split at htw2
                · simp at htw2
                · next hsep =>
                  show isSep a = true
                  simpa using hsep
          have hrest : (c :: s').dropWhile (fun c => ¬ isSep c) = []
              ∨ headIsSep ((c :: s').dropWhile (fun c => ¬ isSep c)) = true := by
            cases hdw : (c :: s').dropWhile (fun c => ¬ isSep c) with
            | nil => left; rfl
            | cons a t =>
              right
              have := dropWhile_head_false _ _ _ hdw
              show isSep a = true
              simpa using this
          rw [show canonStep (c :: s') rb
              = canonStep ((c :: s').takeWhile (fun c => ¬ isSep c)
                ++ (c :: s').dropWhile (fun c => ¬ isSep c)) rb from by rw [← hsplit]]
          rw [canonStep_normal _ _ rb hgnorm hrest]
          have hlen : ((c :: s').takeWhile (fun c => ¬ isSep c)).length
              + ((c :: s').dropWhile (fun c => ¬ isSep c)).length = s'.length + 1 := by
            have := congrArg List.length hsplit
            simp only [List.length_append, List.length_cons] at this
            omega
          rcases hrest with hdw | hdw
          · rw [hdw]
            rw [sepCopy_id (by rfl)]
            rw [canonLoopGo_nil]
            rcases hinv with hrb | ⟨k, N, hN, hkN, hrb⟩
            · subst hrb
              rw [List.append_nil]
              have := FinalForm_noStrip 0 [(c :: s').takeWhile (fun c => ¬ isSep c)]
                (by intro g hg; rw [List.mem_singleton] at hg; rw [hg]; exact hgnorm)
                (by simp)
              simp only [List.replicate_zero, List.nil_append] at this
              rw [show renderSegs [(c :: s').takeWhile (fun c => ¬ isSep c)]
                = (c :: s').takeWhile (fun c => ¬ isSep c) from by
                  simp [renderSegs, renderTail]] at this
              exact this
            · subst hrb
              have hcomb : ((c :: s').takeWhile (fun c => ¬ isSep c)).reverse
                  ++ '/' :: (renderSegs (List.replicate k dd ++ N)).reverse
                  = (renderSegs (List.replicate k dd
                      ++ (N ++ [(c :: s').takeWhile (fun c => ¬ isSep c)]))).reverse := by
                rw [show List.replicate k dd ++ (N ++ [(c :: s').takeWhile (fun c => ¬ isSep c)])
                  = (List.replicate k dd ++ N) ++ [(c :: s').takeWhile (fun c => ¬ isSep c)] from by
                    rw [List.append_assoc]]
                rw [rev_decomp_cons _ _ hkN]
              rw [hcomb]
              exact FinalForm_noStrip k (N ++ [(c :: s').takeWhile (fun c => ¬ isSep c)])
                (by intro g hg
                    rcases List.mem_append.mp hg with hg | hg
                    · exact hN g hg
                    · rw [List.mem_singleton] at hg; rw [hg]; exact hgnorm)
                (by simp)
          · obtain ⟨c₀, t₀, hdwe⟩ : ∃ c₀ t₀,
                (c :: s').dropWhile (fun c => ¬ isSep c) = c₀ :: t₀ := by
              cases hx : (c :: s').dropWhile (fun c => ¬ isSep c) with
              | nil => rw [hx] at hdw; simp [headIsSep] at hdw
              | cons a t => exact ⟨a, t, rfl⟩
            have hc₀ : isSep c₀ = true := by
              rw [hdwe] at hdw
              simpa [headIsSep] using hdw
            have hc₀' : c₀ = '/' := isSep_iff.mp hc₀
            subst hc₀'
            rw [hdwe]
            rw [sepCopy_cons (by decide)]
            refine ih (t₀.dropWhile isSep)
              (('/' : Char) :: (((c :: s').takeWhile (fun c => ¬ isSep c)).reverse ++ rb))
              ?_ (headIsSep_dropWhile_isSep t₀) ?_
            · have h1' : 1 ≤ ((c :: s').takeWhile (fun c => ¬ isSep c)).length := by
                rw [hgc]; simp
              have h2' := dropWhile_length_le isSep t₀
              have h3' : ((c :: s').dropWhile (fun c => ¬ isSep c)).length = t₀.length + 1 := by
                rw [hdwe]; rfl
              simp only [List.length_cons] at hf
              omega
            · rcases hinv with hrb | ⟨k, N, hN, hkN, hrb⟩
              · subst hrb
                right
                refine ⟨0, [(c :: s').takeWhile (fun c => ¬ isSep c)],
                  by intro g hg; rw [List.mem_singleton] at hg; rw [hg]; exact hgnorm,
                  by simp, ?_⟩
                rw [List.append_nil]
                simp only [List.replicate_zero, List.nil_append]
                rw [show renderSegs [(c :: s').takeWhile (fun c => ¬ isSep c)]
                  = (c :: s').takeWhile (fun c => ¬ isSep c) from by
                    simp [renderSegs, renderTail]]
              · subst hrb
                right
                refine ⟨k, N ++ [(c :: s').takeWhile (fun c => ¬ isSep c)],
                  by intro g hg
                     rcases List.mem_append.mp hg with hg | hg
                     · exact hN g hg
                     · rw [List.mem_singleton] at hg; rw [hg]; exact hgnorm,
                  by simp, ?_⟩
                rw [show List.replicate k dd ++ (N ++ [(c :: s').takeWhile (fun c => ¬ isSep c)])
                  = (List.replicate k dd ++ N) ++ [(c :: s').takeWhile (fun c => ¬ isSep c)] from by
                    rw [List.append_assoc]]
                rw [rev_decomp_cons _ _ hkN]

/-- C7.  `canonicalize_path` is idempotent. -/
theorem c7_canonicalize_path_idem (s : List Char) :
    canonicalize_path (canonicalize_path s) = canonicalize_path s := by
  obtain ⟨k, N, hN, hbody⟩ := canonLoopGo_shape ((splitRoot s).2.length + 1)
    (splitRoot s).2 [] (by omega) (splitRoot_snd_head s) (Or.inl rfl)
  have hval : canonicalize_path s
      = if ((splitRoot s).1 ++ renderSegs (List.replicate k dd ++ N)) = [] then ['.']
        else ((splitRoot s).1 ++ renderSegs (List.replicate k dd ++ N)) := by
    simp only [canonicalize_path]
    rw [show canonLoop (splitRoot s).2 []
      = canonLoopGo ((splitRoot s).2.length + 1) (splitRoot s).2 [] from rfl]
    rw [hbody]
  rw [hval]
  split
  · decide
  · next hne =>
    exact canonical_fixed (splitRoot s).1 k N (splitRoot_fst_shape s) hN hne

end Debugedit
